import Mathlib

/-
A shallow embedding of the core of the smellysat SAT solver (Rust), together
with theorems checking the sentences of its specification against the code.

Each data type and function is translated from the corresponding Rust source
file, which is cited above the definition.  Machine integers (u32) are
modelled as Nat with explicit `% 2 ^ 32` where wrap-around can occur; Rust
panics are modelled as `none`/`Option`.
-/

namespace Smellysat

/-! ### Variables (src/instance/variable.rs)

`Variable(pub u64)` is a dense integer identifier; modelled directly as `Nat`
(a separate type alias would hide the arithmetic from automation). -/

/-! ### Literals (src/instance/literal.rs)

`Literal(u32)` packs a (variable, polarity) pair into one unsigned word:
low bit = polarity, remaining bits = variable index. -/

structure Literal where
  val : Nat
deriving DecidableEq

/-- `pub const MAX_LITERAL: u32 = 1 << 31;` -/
def MAX_LITERAL : Nat := 2 ^ 31

namespace Literal

/-- `Literal::new`: panics ("variable too large - must be < 2^31") when
`var.0 > MAX_LITERAL`, else returns `Literal((var.0 << 1) | (polarity as u32))`
in 32-bit arithmetic.  The panic is modelled as `none`; the u32 shift wraps
modulo `2 ^ 32`. -/
def new (var : Nat) (polarity : Bool) : Option Literal :=
  if var > MAX_LITERAL then none
  else some ⟨(2 * var + (if polarity then 1 else 0)) % 2 ^ 32⟩

/-- `Literal::var`: `Variable(self.0 >> 1)`. -/
def var (l : Literal) : Nat := l.val / 2

/-- `Literal::polarity`: `(self.0 & 1) != 0`. -/
def polarity (l : Literal) : Bool := decide (l.val % 2 = 1)

/-- `Literal::invert`: `Literal(self.0 ^ 1)`. -/
def invert (l : Literal) : Literal := ⟨l.val ^^^ 1⟩

end Literal

/-! #### Arithmetic facts about the packed representation -/

theorem two_mul_xor_one (v : Nat) : (2 * v) ^^^ 1 = 2 * v + 1 := by
  apply Nat.eq_of_testBit_eq
  intro i
  rw [Nat.testBit_xor]
  cases i with
  | zero =>
    have h1 : (2 * v + 1) % 2 = 1 := by omega
    have h2 : (2 * v) % 2 = 0 := by omega
    simp [Nat.testBit_zero, h1, h2]
  | succ n =>
    have h1 : (2 * v + 1) / 2 = v := by omega
    have h2 : (2 * v) / 2 = v := by omega
    have h3 : (1 : Nat) / 2 = 0 := rfl
    simp [Nat.testBit_succ, h1, h2, h3]

theorem two_mul_add_one_xor_one (v : Nat) : (2 * v + 1) ^^^ 1 = 2 * v := by
  apply Nat.eq_of_testBit_eq
  intro i
  rw [Nat.testBit_xor]
  cases i with
  | zero =>
    have h1 : (2 * v + 1) % 2 = 1 := by omega
    have h2 : (2 * v) % 2 = 0 := by omega
    simp [Nat.testBit_zero, h1, h2]
  | succ n =>
    have h1 : (2 * v + 1) / 2 = v := by omega
    have h2 : (2 * v) / 2 = v := by omega
    have h3 : (1 : Nat) / 2 = 0 := rfl
    simp [Nat.testBit_succ, h1, h2, h3]

theorem Literal.val_injective {x y : Literal} (h : x.val = y.val) : x = y := by
  cases x; cases y; simpa using h

theorem Literal.var_eq (l : Literal) : l.var = l.val / 2 := rfl

theorem Literal.polarity_eq (l : Literal) : l.polarity = decide (l.val % 2 = 1) := rfl

theorem pow31_eq : (2 : Nat) ^ 31 = 2147483648 := by norm_num

theorem pow32_eq : (2 : Nat) ^ 32 = 4294967296 := by norm_num

theorem Literal.val_of_true {l : Literal} (hp : l.polarity = true) :
    l.val = 2 * l.var + 1 := by
  rw [Literal.polarity_eq] at hp
  rw [Literal.var_eq]
  simp at hp
  omega

theorem Literal.val_of_false {l : Literal} (hp : l.polarity = false) :
    l.val = 2 * l.var := by
  rw [Literal.polarity_eq] at hp
  rw [Literal.var_eq]
  simp at hp
  omega

theorem Literal.invert_val_of_true {l : Literal} (hp : l.polarity = true) :
    l.invert.val = 2 * l.var := by
  show l.val ^^^ 1 = _
  rw [Literal.val_of_true hp, two_mul_add_one_xor_one]

theorem Literal.invert_val_of_false {l : Literal} (hp : l.polarity = false) :
    l.invert.val = 2 * l.var + 1 := by
  show l.val ^^^ 1 = _
  rw [Literal.val_of_false hp, two_mul_xor_one]

theorem Literal.var_invert (l : Literal) : l.invert.var = l.var := by
  cases hp : l.polarity with
  | true =>
    rw [Literal.var_eq l.invert, Literal.invert_val_of_true hp]
    omega
  | false =>
    rw [Literal.var_eq l.invert, Literal.invert_val_of_false hp]
    omega

theorem Literal.polarity_invert (l : Literal) : l.invert.polarity = !l.polarity := by
  cases hp : l.polarity with
  | true =>
    rw [Literal.polarity_eq l.invert, Literal.invert_val_of_true hp]
    simp only [Bool.not_true, decide_eq_false_iff_not]
    omega
  | false =>
    rw [Literal.polarity_eq l.invert, Literal.invert_val_of_false hp]
    simp only [Bool.not_false, decide_eq_true_eq]
    omega

theorem Literal.invert_invert (l : Literal) : l.invert.invert = l := by
  unfold Literal.invert
  cases l with
  | mk v =>
    simp [Nat.xor_assoc]

theorem Literal.invert_ne (l : Literal) : l.invert ≠ l := by
  intro h
  have := congrArg Literal.polarity h
  rw [l.polarity_invert] at this
  cases hp : l.polarity <;> rw [hp] at this <;> simp at this

/-- Two distinct literals over the same variable are complementary. -/
theorem Literal.eq_invert_of_var_eq_of_ne {x y : Literal}
    (hv : x.var = y.var) (hne : x ≠ y) : y = x.invert := by
  have hvne : x.val ≠ y.val := fun h => hne (Literal.val_injective h)
  apply Literal.val_injective
  cases hpx : x.polarity with
  | true =>
    have hx := Literal.val_of_true hpx
    have hi := Literal.invert_val_of_true hpx
    cases hpy : y.polarity with
    | true =>
      have hy := Literal.val_of_true hpy
      rw [← hv] at hy
      omega
    | false =>
      have hy := Literal.val_of_false hpy
      rw [← hv] at hy
      omega
  | false =>
    have hx := Literal.val_of_false hpx
    have hi := Literal.invert_val_of_false hpx
    cases hpy : y.polarity with
    | true =>
      have hy := Literal.val_of_true hpy
      rw [← hv] at hy
      omega
    | false =>
      have hy := Literal.val_of_false hpy
      rw [← hv] at hy
      omega

/-! ### Claim C7: literal packing round-trip -/

/-- C7 (counterexample): the claim states that a variable index greater than
`2^31 - 1` is rejected by `Literal::new`.  In the source the guard is
`var.0 > MAX_LITERAL` with `MAX_LITERAL = 1 << 31`, so the index `2^31`
(which exceeds `2^31 - 1`) is accepted; the packed word wraps around to 1,
aliasing variable 0 with positive polarity. -/
theorem C7_literal_packing_counterexample :
    2 ^ 31 - 1 < 2 ^ 31 ∧ Literal.new (2 ^ 31) true = some ⟨1⟩ := by
  constructor
  · norm_num
  · unfold Literal.new MAX_LITERAL
    norm_num

/-- C7 (amended): for a variable index at most `2^31 - 1`, `Literal::new`
succeeds, packs `(2*var + polarity)` into the word, `var()`/`polarity()`
recover the pair, `invert()` keeps the variable, flips the polarity and is an
involution; construction is rejected exactly for indices strictly greater
than `2^31` (the boundary index `2^31` itself is accepted but wraps). -/
theorem C7_literal_packing_amended (v : Nat) (p : Bool) :
    (v ≤ 2 ^ 31 - 1 →
      ∃ l : Literal, Literal.new v p = some l ∧
        l.val = 2 * v + (if p then 1 else 0) ∧
        l.var = v ∧ l.polarity = p ∧
        l.invert.var = v ∧ l.invert.polarity = !p ∧ l.invert.invert = l) ∧
    (2 ^ 31 < v → Literal.new v p = none) := by
  constructor
  · intro hv
    rw [pow31_eq] at hv
    have hlt : ¬ v > MAX_LITERAL := by
      unfold MAX_LITERAL
      rw [pow31_eq]
      omega
    cases p with
    | true =>
      have hnew : Literal.new v true = some ⟨2 * v + 1⟩ := by
        show (if v > MAX_LITERAL then none else some ⟨(2 * v + 1) % 2 ^ 32⟩ : Option Literal)
          = some ⟨2 * v + 1⟩
        rw [if_neg hlt, pow32_eq]
        congr 2
        omega
      have hvar : Literal.var ⟨2 * v + 1⟩ = v := by
        show (2 * v + 1) / 2 = v
        omega
      have hpol : Literal.polarity ⟨2 * v + 1⟩ = true := by
        show decide ((2 * v + 1) % 2 = 1) = true
        rw [decide_eq_true_eq]
        omega
      exact ⟨⟨2 * v + 1⟩, hnew, by simp, hvar, hpol,
        by rw [Literal.var_invert]; exact hvar,
        by rw [Literal.polarity_invert, hpol],
        Literal.invert_invert _⟩
    | false =>
      have hnew : Literal.new v false = some ⟨2 * v⟩ := by
        show (if v > MAX_LITERAL then none else some ⟨(2 * v) % 2 ^ 32⟩ : Option Literal)
          = some ⟨2 * v⟩
        rw [if_neg hlt, pow32_eq]
        congr 2
        omega
      have hvar : Literal.var ⟨2 * v⟩ = v := by
        show (2 * v) / 2 = v
        omega
      have hpol : Literal.polarity ⟨2 * v⟩ = false := by
        show decide ((2 * v) % 2 = 1) = false
        rw [decide_eq_false_iff_not]
        omega
      exact ⟨⟨2 * v⟩, hnew, by simp, hvar, hpol,
        by rw [Literal.var_invert]; exact hvar,
        by rw [Literal.polarity_invert, hpol],
        Literal.invert_invert _⟩
  · intro hv
    unfold Literal.new
    rw [if_pos (show v > MAX_LITERAL from hv)]

theorem C7_literal_packing_witness :
    (∃ l : Literal, Literal.new 5 true = some l ∧
        l.val = 2 * 5 + (if true then 1 else 0) ∧
        l.var = 5 ∧ l.polarity = true ∧
        l.invert.var = 5 ∧ l.invert.polarity = !true ∧ l.invert.invert = l) ∧
    Literal.new (2 ^ 31 + 1) false = none :=
  ⟨(C7_literal_packing_amended 5 true).1 (by norm_num),
   (C7_literal_packing_amended (2 ^ 31 + 1) false).2 (by norm_num)⟩

/-! ### Clauses (src/instance/clause.rs)

A `Clause` is an id plus a vector of literals.  `new_with_id` sorts the
literals by variable (`sort_by_key`, a stable sort), panics if two adjacent
literals share a variable but differ (`a && !a in same clause`), then removes
consecutive duplicates (`Vec::dedup`). -/

/-- Comparison key used by `sort_by_key(|l| l.var())`. -/
def varLe (a b : Literal) : Prop := a.var ≤ b.var

instance : DecidableRel varLe := fun a b => inferInstanceAs (Decidable (a.var ≤ b.var))

instance : IsTotal Literal varLe := ⟨fun a b => Nat.le_total a.var b.var⟩

instance : IsTrans Literal varLe := ⟨fun _ _ _ hab hbc => Nat.le_trans hab hbc⟩

/-- The `windows(2)` loop of `Clause::new_with_id`: true iff some adjacent
pair shares a variable but differs (the panic condition). -/
def tautCheck : List Literal → Bool
  | a :: b :: rest => (decide (a.var = b.var) && decide (a ≠ b)) || tautCheck (b :: rest)
  | _ => false

/-- `Vec::dedup`: remove consecutive duplicate literals. -/
def dedupAdj : List Literal → List Literal
  | a :: b :: rest => if a = b then dedupAdj (b :: rest) else a :: dedupAdj (b :: rest)
  | l => l

structure Clause where
  id : Nat
  literals : List Literal
deriving DecidableEq

namespace Clause

/-- `Clause::new_with_id`: sort by variable, panic (`none`) on a tautological
clause, dedup consecutive duplicates. -/
def newWithId (ix : Nat) (lits : List Literal) : Option Clause :=
  let sorted := List.insertionSort varLe lits
  if tautCheck sorted then none
  else some ⟨ix, dedupAdj sorted⟩

/-- `Clause::new`: `Self::new_with_id(0, lits)`. -/
def new (lits : List Literal) : Option Clause := newWithId 0 lits

/-- `Clause::len`. -/
def len (c : Clause) : Nat := c.literals.length

/-- The `PartialEq` impl: `self.id == other.id`. -/
def beq (c d : Clause) : Bool := c.id == d.id

/-- The `Ord` impl: `self.id.cmp(&other.id)`. -/
def cmp (c d : Clause) : Ordering := compare c.id d.id

/-- The `Hash` impl feeds only `self.id` to the hasher; modelled as the data
that is hashed. -/
def hashData (c : Clause) : Nat := c.id

end Clause

/-! #### Lemmas about the tautology check and dedup -/

theorem tautCheck_exists {l : List Literal} (h : tautCheck l = true) :
    ∃ x ∈ l, ∃ y ∈ l, x.var = y.var ∧ x ≠ y := by
  induction l with
  | nil => simp [tautCheck] at h
  | cons a t ih =>
    cases t with
    | nil => simp [tautCheck] at h
    | cons b r =>
      rw [tautCheck] at h
      simp only [Bool.or_eq_true, Bool.and_eq_true, decide_eq_true_eq] at h
      rcases h with ⟨hv, hne⟩ | h
      · exact ⟨a, by simp, b, by simp, hv, hne⟩
      · obtain ⟨x, hx, y, hy, hv, hne⟩ := ih h
        exact ⟨x, List.mem_cons_of_mem _ hx, y, List.mem_cons_of_mem _ hy, hv, hne⟩

theorem tautCheck_false_head {a b : Literal} {r : List Literal}
    (h : tautCheck (a :: b :: r) = false) :
    (a.var = b.var → a = b) ∧ tautCheck (b :: r) = false := by
  rw [tautCheck] at h
  simp only [Bool.or_eq_false_iff, Bool.and_eq_false_iff, decide_eq_false_iff_not] at h
  obtain ⟨h1, h2⟩ := h
  refine ⟨?_, h2⟩
  intro hv
  rcases h1 with h1 | h1
  · exact absurd hv h1
  · by_contra hne
    exact absurd (decide_eq_true (p := a ≠ b) hne) (by simp [h1])

theorem tautCheck_false_tail {a : Literal} {t : List Literal}
    (h : tautCheck (a :: t) = false) : tautCheck t = false := by
  cases t with
  | nil => rfl
  | cons b r => exact (tautCheck_false_head h).2

theorem same_var_eq_head_of_sorted {a : Literal} {t : List Literal}
    (hs : List.Sorted varLe (a :: t)) (hf : tautCheck (a :: t) = false) :
    ∀ y ∈ t, y.var = a.var → y = a := by
  induction t generalizing a with
  | nil => simp
  | cons b r ih =>
    intro y hy hvy
    have hhead := (tautCheck_false_head hf).1
    have htail := (tautCheck_false_head hf).2
    have hcons := List.sorted_cons.mp hs
    have hab : a.var ≤ b.var := hcons.1 b (by simp)
    have hst : List.Sorted varLe (b :: r) := hcons.2
    rcases List.mem_cons.mp hy with rfl | hyr
    · exact (hhead hvy.symm).symm
    · have hby : b.var ≤ y.var := (List.sorted_cons.mp hst).1 y hyr
      have hba : a.var = b.var := Nat.le_antisymm hab (hvy ▸ hby)
      have hab2 : a = b := hhead hba
      rw [hab2]
      exact ih hst htail y hyr (by rw [hvy, hab2])

theorem var_inj_of_sorted_of_no_taut {l : List Literal}
    (hs : List.Sorted varLe l) (hf : tautCheck l = false) :
    ∀ x ∈ l, ∀ y ∈ l, x.var = y.var → x = y := by
  induction l with
  | nil => simp
  | cons a t ih =>
    intro x hx y hy hv
    have htail := tautCheck_false_tail hf
    have hst := (List.sorted_cons.mp hs).2
    rcases List.mem_cons.mp hx with rfl | hxt
    · rcases List.mem_cons.mp hy with rfl | hyt
      · rfl
      · exact (same_var_eq_head_of_sorted hs hf y hyt hv.symm).symm
    · rcases List.mem_cons.mp hy with rfl | hyt
      · exact same_var_eq_head_of_sorted hs hf x hxt hv
      · exact ih hst htail x hxt y hyt hv

theorem dedupAdj_sublist : ∀ l : List Literal, (dedupAdj l).Sublist l
  | [] => by simp [dedupAdj]
  | [a] => by simp [dedupAdj]
  | a :: b :: r => by
    rw [dedupAdj]
    split
    · exact (dedupAdj_sublist (b :: r)).trans (List.sublist_cons_self a (b :: r))
    · exact (dedupAdj_sublist (b :: r)).cons₂ a

theorem dedupAdj_head : ∀ (a : Literal) (r : List Literal),
    (dedupAdj (a :: r)).head? = some a
  | _, [] => rfl
  | a, b :: r => by
    rw [dedupAdj]
    split
    · next h => rw [h]; exact dedupAdj_head b r
    · rfl

theorem chain_ne_dedupAdj : ∀ l : List Literal,
    List.Chain' (fun x y => x ≠ y) (dedupAdj l)
  | [] => by simp [dedupAdj]
  | [a] => by simp [dedupAdj]
  | a :: b :: r => by
    rw [dedupAdj]
    split
    · exact chain_ne_dedupAdj (b :: r)
    · next h =>
      rw [List.chain'_cons']
      refine ⟨?_, chain_ne_dedupAdj (b :: r)⟩
      intro y hy
      rw [dedupAdj_head b r, Option.mem_def, Option.some.injEq] at hy
      rw [← hy]
      exact h

theorem nodup_of_sorted_chain_inj {l : List Literal}
    (hs : List.Pairwise varLe l) (hc : List.Chain' (fun x y => x ≠ y) l)
    (hinj : ∀ x ∈ l, ∀ y ∈ l, x.var = y.var → x = y) : l.Nodup := by
  induction l with
  | nil => simp
  | cons a t ih =>
    rw [List.nodup_cons]
    constructor
    · intro hmem
      cases t with
      | nil => simp at hmem
      | cons b r =>
        have hne : a ≠ b := (List.chain'_cons.mp hc).1
        rcases List.mem_cons.mp hmem with rfl | hmem'
        · exact hne rfl
        · have h1 : varLe a b := (List.pairwise_cons.mp hs).1 b (by simp)
          have h2 : varLe b a :=
            (List.pairwise_cons.mp (List.pairwise_cons.mp hs).2).1 a hmem'
          have hv : a.var = b.var := Nat.le_antisymm h1 h2
          exact hne (hinj a (by simp) b (by simp) hv)
    · refine ih (List.pairwise_cons.mp hs).2 (List.Chain'.tail hc) ?_
      intro x hx y hy hv
      exact hinj x (List.mem_cons_of_mem _ hx) y (List.mem_cons_of_mem _ hy) hv

/-! ### Claim C8: clause construction rejects exactly tautologies -/

/-- C8: `Clause::new_with_id` panics exactly when the input contains both a
literal and its complement; for every non-tautological input the constructed
literal sequence is sorted by variable and free of duplicate literals. -/
theorem C8_clause_construction (ix : Nat) (lits : List Literal) :
    (Clause.newWithId ix lits = none ↔ ∃ l ∈ lits, l.invert ∈ lits) ∧
    (∀ c : Clause, Clause.newWithId ix lits = some c →
      List.Sorted varLe c.literals ∧ c.literals.Nodup) := by
  have hperm := List.perm_insertionSort varLe lits
  have hsorted := List.sorted_insertionSort varLe lits
  constructor
  · constructor
    · intro hnone
      cases htc : tautCheck (List.insertionSort varLe lits) with
      | false =>
        unfold Clause.newWithId at hnone
        rw [if_neg (by rw [htc]; exact Bool.false_ne_true)] at hnone
        cases hnone
      | true =>
        obtain ⟨x, hx, y, hy, hv, hne⟩ := tautCheck_exists htc
        refine ⟨x, hperm.subset hx, ?_⟩
        have hyx : y = x.invert := Literal.eq_invert_of_var_eq_of_ne hv hne
        rw [← hyx]
        exact hperm.subset hy
    · rintro ⟨x, hx, hxi⟩
      have hxs : x ∈ List.insertionSort varLe lits := hperm.mem_iff.mpr hx
      have hxis : x.invert ∈ List.insertionSort varLe lits := hperm.mem_iff.mpr hxi
      have ht : tautCheck (List.insertionSort varLe lits) = true := by
        cases htc : tautCheck (List.insertionSort varLe lits) with
        | true => rfl
        | false =>
          have heq := var_inj_of_sorted_of_no_taut hsorted htc x hxs x.invert hxis
            (Literal.var_invert x).symm
          exact absurd heq.symm (Literal.invert_ne x)
      unfold Clause.newWithId
      rw [if_pos (by rw [ht])]
  · intro c hc
    cases htc : tautCheck (List.insertionSort varLe lits) with
    | true =>
      unfold Clause.newWithId at hc
      rw [if_pos (by rw [htc])] at hc
      cases hc
    | false =>
      unfold Clause.newWithId at hc
      rw [if_neg (by rw [htc]; exact Bool.false_ne_true)] at hc
      rw [Option.some.injEq] at hc
      rw [← hc]
      have hsub := dedupAdj_sublist (List.insertionSort varLe lits)
      have hpair : List.Pairwise varLe (dedupAdj (List.insertionSort varLe lits)) :=
        List.Pairwise.sublist hsub hsorted
      refine ⟨hpair, ?_⟩
      refine nodup_of_sorted_chain_inj hpair (chain_ne_dedupAdj _) ?_
      intro p hp q hq hv
      exact var_inj_of_sorted_of_no_taut hsorted htc p (hsub.subset hp) q (hsub.subset hq) hv

theorem C8_clause_construction_witness :
    Clause.newWithId 7 [⟨2⟩, ⟨3⟩] = none ∧
    (List.Sorted varLe (Clause.mk 7 [⟨2⟩, ⟨5⟩]).literals ∧
      (Clause.mk 7 [⟨2⟩, ⟨5⟩]).literals.Nodup) :=
  ⟨(C8_clause_construction 7 [⟨2⟩, ⟨3⟩]).1.mpr ⟨⟨2⟩, by decide, by decide⟩,
   (C8_clause_construction 7 [⟨5⟩, ⟨2⟩]).2 ⟨7, [⟨2⟩, ⟨5⟩]⟩ (by decide)⟩

/-! ### Claim C10: clause identity is the id field alone -/

theorem Clause.id_of_newWithId {ix : Nat} {lits : List Literal} {c : Clause}
    (h : Clause.newWithId ix lits = some c) : c.id = ix := by
  unfold Clause.newWithId at h
  cases htc : tautCheck (List.insertionSort varLe lits) with
  | true =>
    rw [if_pos (by rw [htc])] at h
    cases h
  | false =>
    rw [if_neg (by rw [htc]; exact Bool.false_ne_true)] at h
    rw [Option.some.injEq] at h
    rw [← h]

/-- C10: equality, ordering and hashing of `Clause` values depend only on the
`id` field and ignore the literals; `Clause::new` always assigns id 0, so any
two clauses built via `Clause::new` compare equal regardless of literals. -/
theorem C10_clause_identity_by_id :
    (∀ c d : Clause, c.id = d.id →
      Clause.beq c d = true ∧ Clause.cmp c d = Ordering.eq ∧
      Clause.hashData c = Clause.hashData d) ∧
    (∀ (l₁ l₂ : List Literal) (c₁ c₂ : Clause),
      Clause.new l₁ = some c₁ → Clause.new l₂ = some c₂ → Clause.beq c₁ c₂ = true) := by
  constructor
  · intro c d h
    refine ⟨?_, ?_, h⟩
    · simp [Clause.beq, h]
    · simp only [Clause.cmp, h]
      exact Nat.compare_eq_eq.mpr rfl
  · intro l₁ l₂ c₁ c₂ h₁ h₂
    have e₁ : c₁.id = 0 := Clause.id_of_newWithId h₁
    have e₂ : c₂.id = 0 := Clause.id_of_newWithId h₂
    simp [Clause.beq, e₁, e₂]

theorem C10_clause_identity_witness :
    (Clause.beq ⟨3, [⟨0⟩]⟩ ⟨3, []⟩ = true ∧
      Clause.cmp ⟨3, [⟨0⟩]⟩ ⟨3, []⟩ = Ordering.eq ∧
      Clause.hashData ⟨3, [⟨0⟩]⟩ = Clause.hashData ⟨3, []⟩) ∧
    Clause.beq ⟨0, [⟨0⟩]⟩ ⟨0, [⟨5⟩]⟩ = true :=
  ⟨C10_clause_identity_by_id.1 ⟨3, [⟨0⟩]⟩ ⟨3, []⟩ rfl,
   C10_clause_identity_by_id.2 [⟨0⟩] [⟨5⟩] ⟨0, [⟨0⟩]⟩ ⟨0, [⟨5⟩]⟩ (by decide) (by decide)⟩

/-! ### Assignment sets (src/solver/assignment_set.rs)

`LiteralSet` is a hash map from variable to polarity.  It is modelled as an
association list; `add` replaces any existing entry for the variable (hash-map
insert), so the key list stays duplicate-free by construction.  Map iteration
order is unspecified in the source and no modelled operation depends on it. -/

inductive EvaluationResult where
  | True
  | False
  | Unknown
deriving DecidableEq

structure LiteralSet where
  values : List (Nat × Bool)
deriving DecidableEq

namespace LiteralSet

/-- `LiteralSet::new`. -/
def new : LiteralSet := ⟨[]⟩

/-- `LiteralSet::get`: `values.get(&var)`. -/
def get (s : LiteralSet) (var : Nat) : Option Bool :=
  (s.values.find? (fun kv => kv.1 == var)).map (fun kv => kv.2)

/-- `LiteralSet::add`: `values.insert(lit.var(), lit.polarity())`. -/
def add (s : LiteralSet) (lit : Literal) : LiteralSet :=
  ⟨(s.values.filter (fun kv => !(kv.1 == lit.var))) ++ [(lit.var, lit.polarity)]⟩

/-- `LiteralSet::contains`: `get(var) == Some(polarity)`. -/
def contains (s : LiteralSet) (lit : Literal) : Bool :=
  s.get lit.var == some lit.polarity

/-- `LiteralSet::remove`: removes the entry and panics (`none`) unless the
removed value is exactly `Some(lit.polarity())`. -/
def remove (s : LiteralSet) (lit : Literal) : Option LiteralSet :=
  if s.get lit.var = some lit.polarity then
    some ⟨s.values.filter (fun kv => !(kv.1 == lit.var))⟩
  else none

/-- `LiteralSet::size`: `values.len()`. -/
def size (s : LiteralSet) : Nat := s.values.length

/-- The literal stored for an entry (inverse of the (var, polarity) split). -/
def entryLiteral (kv : Nat × Bool) : Literal :=
  ⟨2 * kv.1 + (if kv.2 then 1 else 0)⟩

/-- Loop body of `LiteralSet::evaluate`: first satisfied literal gives `True`,
first unassigned literal gives `Unknown`, exhaustion gives `False`. -/
def evaluateList (s : LiteralSet) : List Literal → EvaluationResult
  | [] => .False
  | l :: rest =>
    match s.get l.var with
    | some b => if b = l.polarity then .True else evaluateList s rest
    | none => .Unknown

/-- `LiteralSet::evaluate` on a clause. -/
def evaluate (s : LiteralSet) (c : Clause) : EvaluationResult :=
  evaluateList s c.literals

end LiteralSet

/-! ### Unit propagation of a single clause (src/solver/unit_propagator.rs)

`UnitPropagator::propagate_unit` walks the literals of a candidate clause
(one with free count exactly 1): a literal whose assigned sign equals its
polarity yields `Conflicted`; a second unassigned literal yields `Failed`;
otherwise the one unassigned literal is `Inferred`.  The final
`last_unknown.unwrap()` panics when every literal is assigned; the panic is
modelled as `Panicked`. -/

inductive PropagationResult where
  | Conflicted (literal : Literal) (conflictingClause : Clause)
  | Inferred (literal : Literal)
  | Failed
  | Panicked
deriving DecidableEq

def propagateUnitGo (assignment : LiteralSet) (clause : Clause) :
    List Literal → Option Literal → PropagationResult
  | [], lastUnknown =>
    match lastUnknown with
    | some l => .Inferred l
    | none => .Panicked
  | l :: rest, lastUnknown =>
    match assignment.get l.var with
    | some s =>
      if s = l.polarity then .Conflicted l clause
      else propagateUnitGo assignment clause rest lastUnknown
    | none =>
      match lastUnknown with
      | some _ => .Failed
      | none => propagateUnitGo assignment clause rest (some l)

/-- `UnitPropagator::propagate_unit` (the active version, lines 113-134). -/
def propagate_unit (assignment : LiteralSet) (clause : Clause) : PropagationResult :=
  propagateUnitGo assignment clause clause.literals none

/-! ### Claim C3: candidate clauses with a satisfied literal are skipped -/

/-- C3 (code bug): take the clause `(x0 ∨ x1)` and the assignment
`{x0 = true}` (so the clause has free count exactly 1 and its literal `x0` is
satisfied).  The spec says such a candidate is skipped; the code instead
returns `Conflicted` for it — `propagate_unit` treats a satisfied literal
(`ass_sign == literal.polarity()`) as a conflict, and `propagate_units`
surfaces that as a reported conflict. -/
theorem C3_satisfied_clause_conflict :
    (LiteralSet.new.add ⟨1⟩).evaluate (Clause.mk 0 [⟨1⟩, ⟨3⟩]) = EvaluationResult.True ∧
    ((Clause.mk 0 [⟨1⟩, ⟨3⟩]).literals.filter
        (fun l => ((LiteralSet.new.add ⟨1⟩).get l.var).isNone)).length = 1 ∧
    propagate_unit (LiteralSet.new.add ⟨1⟩) (Clause.mk 0 [⟨1⟩, ⟨3⟩]) =
      PropagationResult.Conflicted ⟨1⟩ (Clause.mk 0 [⟨1⟩, ⟨3⟩]) := by
  refine ⟨by decide, by decide, by decide⟩

/-! ### Trail (src/solver/trail.rs)

The trail is a vector of levels; `trail[0]` is decision level 0 (no decision
literal), each later entry holds one decision plus its inferred literals, and
a cumulative assignment is kept alongside.  The debug assertions
(`require_unset`, `LiteralSet::remove` mismatch) are modelled as `none`. -/

structure TrailEntry where
  decision : Option Literal
  inferred : List Literal
  all : LiteralSet
deriving DecidableEq

/-- `TrailEntry::new`. -/
def TrailEntry.newEntry (lit : Option Literal) : TrailEntry :=
  match lit with
  | some l => ⟨some l, [], LiteralSet.new.add l⟩
  | none => ⟨none, [], LiteralSet.new⟩

structure BacktrackResult where
  assignments : List Literal
  last_decision : Option Literal
deriving DecidableEq

structure Trail where
  trail : List TrailEntry
  cumulative_assignment : LiteralSet
deriving DecidableEq

namespace Trail

/-- `Trail::new`: one root entry for decision level 0. -/
def new : Trail := ⟨[TrailEntry.newEntry none], LiteralSet.new⟩

/-- `Trail::current_decision_level`: `trail.len() - 1`. -/
def current_decision_level (t : Trail) : Nat := t.trail.length - 1

/-- `Trail::assignment`. -/
def assignment (t : Trail) : LiteralSet := t.cumulative_assignment

/-- `Trail::require_unset` (debug assertion): the literal's variable must be
unassigned in either polarity. -/
def requireUnset (t : Trail) (lit : Literal) : Bool :=
  !(t.cumulative_assignment.contains lit) && !(t.cumulative_assignment.contains lit.invert)

/-- `Trail::add_decision`: assert unset, add to the cumulative assignment,
push a fresh level. -/
def add_decision (t : Trail) (lit : Literal) : Option Trail :=
  if requireUnset t lit then
    some ⟨t.trail ++ [TrailEntry.newEntry (some lit)], t.cumulative_assignment.add lit⟩
  else none

/-- The `trail.last_mut()` update of `add_inferred`: push onto the last
level's inferred list (no level: no trail change, as in the source). -/
def modifyLastEntry : List TrailEntry → Literal → List TrailEntry
  | [], _ => []
  | [e], l => [⟨e.decision, e.inferred ++ [l], e.all.add l⟩]
  | e :: rest, l => e :: modifyLastEntry rest l

/-- `Trail::add_inferred`. -/
def add_inferred (t : Trail) (lit : Literal) : Option Trail :=
  if requireUnset t lit then
    some ⟨modifyLastEntry t.trail lit, t.cumulative_assignment.add lit⟩
  else none

/-- `Trail::execute_backtrack`: drain the entries from `point` on; collect
each dropped entry's inferred literals followed by its decision literal;
the first dropped entry's decision is the `last_decision`. -/
def executeBacktrack (tr : List TrailEntry) (point : Nat) :
    BacktrackResult × List TrailEntry :=
  let dropped := tr.drop point
  let kept := tr.take point
  let lastDec := dropped.head?.bind (fun e => e.decision)
  let assignments :=
    dropped.foldl (fun acc e => acc ++ e.inferred ++ e.decision.toList) []
  (⟨assignments, lastDec⟩, kept)

/-- Remove each literal in turn from the cumulative assignment
(`LiteralSet::remove` panics — `none` — on a mismatch). -/
def removeAll (s : LiteralSet) : List Literal → Option LiteralSet
  | [] => some s
  | l :: rest =>
    match s.remove l with
    | some s' => removeAll s' rest
    | none => none

/-- `Trail::backtrack`: execute the drain, then remove every returned literal
from the cumulative assignment. -/
def backtrack (t : Trail) (pivot : Nat) : Option (BacktrackResult × Trail) :=
  match removeAll t.cumulative_assignment (executeBacktrack t.trail pivot).1.assignments with
  | some cum => some ((executeBacktrack t.trail pivot).1, ⟨(executeBacktrack t.trail pivot).2, cum⟩)
  | none => none

end Trail

/-! ### Claim C4: what backtrack drops and returns -/

/-- The removal list asserted by the claim (for comparison): the literals of
the levels strictly greater than `level`, each level's decision before its
inferred literals, earlier levels first. -/
def backtrackSpecClaim (t : Trail) (level : Nat) : List Literal :=
  (t.trail.drop (level + 1)).flatMap (fun e => e.decision.toList ++ e.inferred)

/-- The concrete trail used for claim C4: level 1 holds decision `x0` and
inferred `!x2` (literal words 1 and 4). -/
def trailC4 : Trail :=
  ⟨[TrailEntry.newEntry none,
    ⟨some ⟨1⟩, [⟨4⟩], ⟨[(0, true), (2, false)]⟩⟩],
   ⟨[(0, true), (2, false)]⟩⟩

/-- C4 (counterexample): on the trail with one decision level (decision `x0`,
inferred `!x2`), `backtrack(1)` would — per the claim — drop only levels
strictly greater than 1 and hence return `[]`; the code drops level 1 itself
and returns `[!x2, x0]`, with the inferred literal before the decision. -/
theorem C4_trail_backtrack_counterexample :
    (Trail.new.add_decision ⟨1⟩).bind (fun t1 => t1.add_inferred ⟨4⟩) = some trailC4 ∧
    (trailC4.backtrack 1).map (fun pr => pr.1.assignments) = some [⟨4⟩, ⟨1⟩] ∧
    backtrackSpecClaim trailC4 1 = [] := by
  refine ⟨by decide, by decide, by decide⟩

theorem foldl_append_eq_flatMap (f : TrailEntry → List Literal) :
    ∀ (l : List TrailEntry) (acc : List Literal),
      l.foldl (fun a e => a ++ f e) acc = acc ++ l.flatMap f
  | [], acc => by simp
  | x :: rest, acc => by
    rw [List.foldl_cons, foldl_append_eq_flatMap f rest (acc ++ f x)]
    simp

/-- C4 (amended): `Trail::backtrack(pivot)` treats `pivot` as a trail index:
it drops exactly the levels with index at least `pivot` (the levels strictly
greater than `pivot - 1`) and keeps the earlier ones, and the returned list
holds the literals of the dropped levels, earlier levels first, with each
level's inferred literals (in insertion order) before that level's decision
literal. -/
theorem C4_trail_backtrack_amended (t : Trail) (pivot : Nat) (r : BacktrackResult)
    (t' : Trail) (h : t.backtrack pivot = some (r, t')) :
    t'.trail = t.trail.take pivot ∧
    r.assignments = (t.trail.drop pivot).flatMap (fun e => e.inferred ++ e.decision.toList) ∧
    r.last_decision = (t.trail.drop pivot).head?.bind (fun e => e.decision) := by
  unfold Trail.backtrack at h
  rcases hrem : Trail.removeAll t.cumulative_assignment
      (Trail.executeBacktrack t.trail pivot).1.assignments with _ | cum
  · rw [hrem] at h
    cases h
  · rw [hrem] at h
    rw [Option.some.injEq] at h
    have hr : r = (Trail.executeBacktrack t.trail pivot).1 := (congrArg Prod.fst h).symm
    have ht' : t' = ⟨(Trail.executeBacktrack t.trail pivot).2, cum⟩ :=
      (congrArg Prod.snd h).symm
    refine ⟨?_, ?_, ?_⟩
    · rw [ht']
      rfl
    · rw [hr]
      show (t.trail.drop pivot).foldl (fun acc e => acc ++ e.inferred ++ e.decision.toList) []
        = _
      have hfn : (fun (acc : List Literal) (e : TrailEntry) =>
          acc ++ e.inferred ++ e.decision.toList)
          = fun acc e => acc ++ (e.inferred ++ e.decision.toList) := by
        funext acc e
        rw [List.append_assoc]
      rw [hfn, foldl_append_eq_flatMap (fun e => e.inferred ++ e.decision.toList)]
      rfl
    · rw [hr]
      rfl

theorem C4_trail_backtrack_witness :
    ∃ r t', trailC4.backtrack 1 = some (r, t') ∧
      t'.trail = trailC4.trail.take 1 ∧
      r.assignments =
        (trailC4.trail.drop 1).flatMap (fun e => e.inferred ++ e.decision.toList) ∧
      r.last_decision = (trailC4.trail.drop 1).head?.bind (fun e => e.decision) := by
  have h : trailC4.backtrack 1 =
      some (⟨[⟨4⟩, ⟨1⟩], some ⟨1⟩⟩, ⟨[TrailEntry.newEntry none], ⟨[]⟩⟩) := by decide
  exact ⟨_, _, h, C4_trail_backtrack_amended trailC4 1 _ _ h⟩

/-! ### Claim C6: trail size invariant -/

/-- The literals stored in one trail level, in insertion order (the decision
first, then the inferred literals). -/
def entryFlat (e : TrailEntry) : List Literal := e.decision.toList ++ e.inferred

/-- All literals stored on the trail, level by level. -/
def flatLits (t : Trail) : List Literal := t.trail.flatMap entryFlat

/-- The (variable, polarity) pairs of a literal list. -/
def pairsOf (ls : List Literal) : List (Nat × Bool) :=
  ls.map (fun x => (x.var, x.polarity))

theorem pairsOf_fst (ls : List Literal) :
    (pairsOf ls).map Prod.fst = ls.map Literal.var := by
  unfold pairsOf
  rw [List.map_map]
  rfl

theorem LiteralSet.get_eq_none_iff {s : LiteralSet} {v : Nat} :
    s.get v = none ↔ ∀ kv ∈ s.values, kv.1 ≠ v := by
  unfold LiteralSet.get
  rw [Option.map_eq_none', List.find?_eq_none]
  constructor
  · intro h kv hkv
    have := h kv hkv
    simpa using this
  · intro h kv hkv
    simpa using h kv hkv

theorem LiteralSet.not_mem_keys_of_get_none {s : LiteralSet} {v : Nat}
    (h : s.get v = none) : v ∉ s.values.map Prod.fst := by
  intro hv
  obtain ⟨kv, hkv, hfst⟩ := List.mem_map.mp hv
  exact (LiteralSet.get_eq_none_iff.mp h kv hkv) hfst

theorem find_entry {l : List (Nat × Bool)} {v : Nat} {b : Bool}
    (hmem : (v, b) ∈ l) (hnd : (l.map Prod.fst).Nodup) :
    (l.find? (fun kv => kv.1 == v)).map (fun kv => kv.2) = some b := by
  induction l with
  | nil => cases hmem
  | cons kv rest ih =>
    rw [List.map_cons, List.nodup_cons] at hnd
    rcases List.mem_cons.mp hmem with rfl | hmem'
    · rw [@List.find?_cons_of_pos (Nat × Bool) (fun kv => kv.1 == v) (v, b) rest (by simp)]
      rfl
    · have hk : ¬ ((fun kv : Nat × Bool => kv.1 == v) kv) = true := by
        intro he
        rw [beq_iff_eq] at he
        apply hnd.1
        rw [he]
        exact List.mem_map_of_mem Prod.fst hmem'
      rw [@List.find?_cons_of_neg (Nat × Bool) (fun kv => kv.1 == v) kv rest hk]
      exact ih hmem' hnd.2

theorem LiteralSet.get_of_mem {s : LiteralSet} {v : Nat} {b : Bool}
    (hmem : (v, b) ∈ s.values) (hnd : (s.values.map Prod.fst).Nodup) :
    s.get v = some b :=
  find_entry hmem hnd

theorem LiteralSet.mem_of_get {s : LiteralSet} {v : Nat} {b : Bool}
    (h : s.get v = some b) : (v, b) ∈ s.values := by
  unfold LiteralSet.get at h
  cases hf : s.values.find? (fun kv => kv.1 == v) with
  | none => rw [hf] at h; cases h
  | some kv =>
    rw [hf] at h
    have hm := List.mem_of_find?_eq_some hf
    have hp := List.find?_some hf
    rw [beq_iff_eq] at hp
    have hb : kv.2 = b := by
      simpa using h
    have : kv = (v, b) := by
      cases kv
      simp at hp hb
      simp [hp, hb]
    rw [← this]
    exact hm

theorem LiteralSet.add_values_of_get_none {s : LiteralSet} {l : Literal}
    (h : s.get l.var = none) :
    (s.add l).values = s.values ++ [(l.var, l.polarity)] := by
  unfold LiteralSet.add
  have : s.values.filter (fun kv => !(kv.1 == l.var)) = s.values := by
    rw [List.filter_eq_self]
    intro kv hkv
    have := LiteralSet.get_eq_none_iff.mp h kv hkv
    simpa using this
  rw [this]

theorem perm_filter_of_mem {vals : List (Nat × Bool)} {v : Nat} {b : Bool}
    (hmem : (v, b) ∈ vals) (hnd : (vals.map Prod.fst).Nodup) :
    vals.Perm ((v, b) :: vals.filter (fun kv => !(kv.1 == v))) := by
  induction vals with
  | nil => cases hmem
  | cons kv rest ih =>
    rw [List.map_cons, List.nodup_cons] at hnd
    rcases List.mem_cons.mp hmem with rfl | hmem'
    · have hfilter : rest.filter (fun kv => !(kv.1 == v)) = rest := by
        rw [List.filter_eq_self]
        intro x hx
        have hne : x.1 ≠ v := by
          intro he
          apply hnd.1
          show v ∈ List.map Prod.fst rest
          rw [← he]
          exact List.mem_map_of_mem Prod.fst hx
        simpa using hne
      rw [List.filter_cons_of_neg (by simp), hfilter]
    · have hk : kv.1 ≠ v := by
        intro he
        apply hnd.1
        rw [he]
        exact List.mem_map_of_mem Prod.fst hmem'
      rw [List.filter_cons_of_pos (by simpa using hk)]
      exact ((ih hmem' hnd.2).cons kv).trans (List.Perm.swap _ _ _)

theorem LiteralSet.remove_spec {s : LiteralSet} {l : Literal} {s' : LiteralSet}
    (hnd : (s.values.map Prod.fst).Nodup) (h : s.remove l = some s') :
    s.values.Perm ((l.var, l.polarity) :: s'.values) ∧
    (s'.values.map Prod.fst).Nodup := by
  unfold LiteralSet.remove at h
  by_cases hc : s.get l.var = some l.polarity
  · rw [if_pos hc] at h
    rw [Option.some.injEq] at h
    have hv : s'.values = s.values.filter (fun kv => !(kv.1 == l.var)) := by
      rw [← h]
    have hmem : (l.var, l.polarity) ∈ s.values := LiteralSet.mem_of_get hc
    constructor
    · rw [hv]
      exact perm_filter_of_mem hmem hnd
    · rw [hv]
      exact List.Nodup.sublist (List.Sublist.map _ (List.filter_sublist _)) hnd
  · rw [if_neg hc] at h
    cases h

theorem removeAll_spec {ls : List Literal} :
    ∀ {s s' : LiteralSet}, (s.values.map Prod.fst).Nodup →
      Trail.removeAll s ls = some s' →
      s.values.Perm (pairsOf ls ++ s'.values) ∧ (s'.values.map Prod.fst).Nodup := by
  induction ls with
  | nil =>
    intro s s' hnd h
    unfold Trail.removeAll at h
    rw [Option.some.injEq] at h
    rw [h]
    exact ⟨List.Perm.refl _, h ▸ hnd⟩
  | cons l rest ih =>
    intro s s' hnd h
    unfold Trail.removeAll at h
    cases hr : s.remove l with
    | none => rw [hr] at h; cases h
    | some s₁ =>
      rw [hr] at h
      obtain ⟨hp₁, hnd₁⟩ := LiteralSet.remove_spec hnd hr
      obtain ⟨hp₂, hnd₂⟩ := ih hnd₁ h
      exact ⟨hp₁.trans (hp₂.cons (l.var, l.polarity)), hnd₂⟩

theorem flat_modifyLastEntry :
    ∀ (tr : List TrailEntry) (l : Literal), tr ≠ [] →
      (Trail.modifyLastEntry tr l).flatMap entryFlat = tr.flatMap entryFlat ++ [l]
  | [], _, h => absurd rfl h
  | [e], l, _ => by
    simp [Trail.modifyLastEntry, entryFlat]
  | e :: e' :: rest, l, _ => by
    have ih := flat_modifyLastEntry (e' :: rest) l (by simp)
    show (e :: Trail.modifyLastEntry (e' :: rest) l).flatMap entryFlat = _
    rw [List.flatMap_cons, ih, List.flatMap_cons]
    simp [List.append_assoc]

theorem modifyLastEntry_ne_nil {tr : List TrailEntry} {l : Literal} (h : tr ≠ []) :
    Trail.modifyLastEntry tr l ≠ [] := by
  cases tr with
  | nil => exact absurd rfl h
  | cons e rest =>
    cases rest with
    | nil => simp [Trail.modifyLastEntry]
    | cons e' rest' => simp [Trail.modifyLastEntry]

theorem get_none_of_requireUnset {t : Trail} {l : Literal}
    (h : t.requireUnset l = true) : t.cumulative_assignment.get l.var = none := by
  cases hg : t.cumulative_assignment.get l.var with
  | none => rfl
  | some b =>
    exfalso
    unfold Trail.requireUnset LiteralSet.contains at h
    rw [Literal.var_invert, Literal.polarity_invert, hg] at h
    cases hb : b <;> cases hp : l.polarity <;> rw [hb, hp] at h <;> simp at h

/-- The sequences of trail operations asserted by the amended claim: the
fresh trail, `add_decision`/`add_inferred` calls whose debug assertions pass,
and `backtrack` calls with pivot at least 1 (backtracking level 0 away is a
contract violation in the spec). -/
inductive ReachableTrail : Trail → Prop where
  | init : ReachableTrail Trail.new
  | decision {t t' : Trail} (l : Literal) :
      ReachableTrail t → t.add_decision l = some t' → ReachableTrail t'
  | inferred {t t' : Trail} (l : Literal) :
      ReachableTrail t → t.add_inferred l = some t' → ReachableTrail t'
  | backjump {t t' : Trail} (p : Nat) (r : BacktrackResult) :
      ReachableTrail t → 1 ≤ p → t.backtrack p = some (r, t') → ReachableTrail t'

/-- The inductive invariant carried by the proof: the cumulative assignment's
entries are a permutation of the (variable, polarity) pairs of the trail's
literals, the trail's variables are pairwise distinct, and the level list is
never empty. -/
def TrailInv (t : Trail) : Prop :=
  t.cumulative_assignment.values.Perm (pairsOf (flatLits t)) ∧
  ((flatLits t).map Literal.var).Nodup ∧
  t.trail ≠ []

theorem inv_init : TrailInv Trail.new := by
  refine ⟨?_, ?_, ?_⟩ <;> simp [Trail.new, flatLits, pairsOf, entryFlat,
    TrailEntry.newEntry, LiteralSet.new]

theorem inv_add_decision {t t' : Trail} {l : Literal} (inv : TrailInv t)
    (h : t.add_decision l = some t') : TrailInv t' := by
  obtain ⟨hperm, hnd, hne⟩ := inv
  unfold Trail.add_decision at h
  by_cases hru : t.requireUnset l = true
  · rw [if_pos hru] at h
    rw [Option.some.injEq] at h
    subst h
    have hget := get_none_of_requireUnset hru
    have hadd := LiteralSet.add_values_of_get_none hget
    have hkeys : l.var ∉ (flatLits t).map Literal.var := by
      intro hmem
      apply LiteralSet.not_mem_keys_of_get_none hget
      rw [← pairsOf_fst] at hmem
      exact ((hperm.map Prod.fst).mem_iff).mpr hmem
    have hflat : flatLits ⟨t.trail ++ [TrailEntry.newEntry (some l)],
        t.cumulative_assignment.add l⟩ = flatLits t ++ [l] := by
      unfold flatLits
      rw [List.flatMap_append]
      simp [entryFlat, TrailEntry.newEntry]
    refine ⟨?_, ?_, by simp⟩
    · show (t.cumulative_assignment.add l).values.Perm _
      rw [hadd, hflat]
      unfold pairsOf
      rw [List.map_append]
      exact hperm.append_right _
    · rw [hflat, List.map_append, List.nodup_append]
      refine ⟨hnd, by simp, ?_⟩
      intro v hv hv'
      simp at hv'
      rw [hv'] at hv
      exact hkeys hv
  · rw [if_neg hru] at h
    cases h

theorem inv_add_inferred {t t' : Trail} {l : Literal} (inv : TrailInv t)
    (h : t.add_inferred l = some t') : TrailInv t' := by
  obtain ⟨hperm, hnd, hne⟩ := inv
  unfold Trail.add_inferred at h
  by_cases hru : t.requireUnset l = true
  · rw [if_pos hru] at h
    rw [Option.some.injEq] at h
    subst h
    have hget := get_none_of_requireUnset hru
    have hadd := LiteralSet.add_values_of_get_none hget
    have hkeys : l.var ∉ (flatLits t).map Literal.var := by
      intro hmem
      apply LiteralSet.not_mem_keys_of_get_none hget
      rw [← pairsOf_fst] at hmem
      exact ((hperm.map Prod.fst).mem_iff).mpr hmem
    have hflat : flatLits ⟨Trail.modifyLastEntry t.trail l,
        t.cumulative_assignment.add l⟩ = flatLits t ++ [l] :=
      flat_modifyLastEntry t.trail l hne
    refine ⟨?_, ?_, modifyLastEntry_ne_nil hne⟩
    · show (t.cumulative_assignment.add l).values.Perm _
      rw [hadd, hflat]
      unfold pairsOf
      rw [List.map_append]
      exact hperm.append_right _
    · rw [hflat, List.map_append, List.nodup_append]
      refine ⟨hnd, by simp, ?_⟩
      intro v hv hv'
      simp at hv'
      rw [hv'] at hv
      exact hkeys hv
  · rw [if_neg hru] at h
    cases h

theorem assignments_perm_entryFlat (dropped : List TrailEntry) :
    (dropped.flatMap (fun e => e.inferred ++ e.decision.toList)).Perm
      (dropped.flatMap entryFlat) := by
  induction dropped with
  | nil => simp
  | cons e rest ih =>
    rw [List.flatMap_cons, List.flatMap_cons]
    exact (List.perm_append_comm).append ih

theorem backtrack_some {t : Trail} {p : Nat} {r : BacktrackResult} {t' : Trail}
    (h : t.backtrack p = some (r, t')) :
    r.assignments =
      (t.trail.drop p).flatMap (fun e => e.inferred ++ e.decision.toList) ∧
    t'.trail = t.trail.take p ∧
    Trail.removeAll t.cumulative_assignment r.assignments =
      some t'.cumulative_assignment := by
  unfold Trail.backtrack at h
  rcases hrem : Trail.removeAll t.cumulative_assignment
      (Trail.executeBacktrack t.trail p).1.assignments with _ | cum
  · rw [hrem] at h
    cases h
  · rw [hrem] at h
    rw [Option.some.injEq] at h
    have hr : r = (Trail.executeBacktrack t.trail p).1 := (congrArg Prod.fst h).symm
    have ht' : t' = ⟨(Trail.executeBacktrack t.trail p).2, cum⟩ :=
      (congrArg Prod.snd h).symm
    refine ⟨?_, by rw [ht']; rfl, ?_⟩
    · rw [hr]
      show (t.trail.drop p).foldl (fun acc e => acc ++ e.inferred ++ e.decision.toList) [] = _
      have hfn : (fun (acc : List Literal) (e : TrailEntry) =>
          acc ++ e.inferred ++ e.decision.toList)
          = fun acc e => acc ++ (e.inferred ++ e.decision.toList) := by
        funext acc e
        rw [List.append_assoc]
      rw [hfn, foldl_append_eq_flatMap (fun e => e.inferred ++ e.decision.toList)]
      rfl
    · rw [hr, ht', hrem]

theorem inv_backtrack {t t' : Trail} {p : Nat} {r : BacktrackResult}
    (inv : TrailInv t) (hp : 1 ≤ p) (h : t.backtrack p = some (r, t')) : TrailInv t' := by
  obtain ⟨hperm, hnd, hne⟩ := inv
  obtain ⟨hassign, htrail, hrem⟩ := backtrack_some h
  have hndv : (t.cumulative_assignment.values.map Prod.fst).Nodup := by
    rw [((hperm.map Prod.fst).nodup_iff)]
    rw [pairsOf_fst]
    exact hnd
  obtain ⟨hpermrem, hndrem⟩ := removeAll_spec hndv hrem
  have hsplit : flatLits t =
      (t.trail.take p).flatMap entryFlat ++ (t.trail.drop p).flatMap entryFlat := by
    unfold flatLits
    rw [← List.flatMap_append, List.take_append_drop]
  have hflat' : flatLits t' = (t.trail.take p).flatMap entryFlat := by
    unfold flatLits
    rw [htrail]
  have hpermassign : (pairsOf r.assignments).Perm
      (pairsOf ((t.trail.drop p).flatMap entryFlat)) := by
    rw [hassign]
    exact (assignments_perm_entryFlat _).map _
  -- values ~ pairs(drop) ++ cum', and values ~ pairs(drop) ++ pairs(take)
  have h1 : t.cumulative_assignment.values.Perm
      (pairsOf ((t.trail.drop p).flatMap entryFlat) ++ t'.cumulative_assignment.values) :=
    hpermrem.trans (hpermassign.append_right _)
  have h2 : t.cumulative_assignment.values.Perm
      (pairsOf ((t.trail.drop p).flatMap entryFlat) ++
        pairsOf ((t.trail.take p).flatMap entryFlat)) := by
    refine (hperm.trans ?_)
    rw [hsplit]
    unfold pairsOf
    rw [List.map_append]
    exact List.perm_append_comm
  have hcum : t'.cumulative_assignment.values.Perm
      (pairsOf ((t.trail.take p).flatMap entryFlat)) :=
    (List.perm_append_left_iff _).mp (h1.symm.trans h2)
  refine ⟨?_, ?_, ?_⟩
  · rw [hflat']
    exact hcum
  · rw [hflat']
    have hsub : ((t.trail.take p).flatMap entryFlat).Sublist (flatLits t) := by
      rw [hsplit]
      exact List.sublist_append_left _ _
    exact List.Nodup.sublist (List.Sublist.map _ hsub) hnd
  · rw [htrail]
    cases htr : t.trail with
    | nil => exact absurd htr hne
    | cons e rest =>
      obtain ⟨q, rfl⟩ : ∃ q, p = q + 1 := ⟨p - 1, by omega⟩
      simp

theorem trailInv_reachable {t : Trail} (h : ReachableTrail t) : TrailInv t := by
  induction h with
  | init => exact inv_init
  | decision l _ hstep ih => exact inv_add_decision ih hstep
  | inferred l _ hstep ih => exact inv_add_inferred ih hstep
  | backjump p r _ hp hstep ih => exact inv_backtrack ih hp hstep

/-- C6 (counterexample): the claim quantifies over every sequence of trail
operations.  The sequence `backtrack(0); add_inferred(x0)` (no debug
assertion fires) drains the root level, after which `add_inferred` updates
the cumulative assignment but not the (now empty) trail: 0 trail literals
against 1 assignment entry. -/
theorem C6_trail_size_invariant_counterexample :
    ∃ t : Trail,
      (Trail.new.backtrack 0).bind (fun pr => pr.2.add_inferred ⟨1⟩) = some t ∧
      (flatLits t).length = 0 ∧ t.assignment.size = 1 := by
  refine ⟨⟨[], ⟨[(0, true)]⟩⟩, by decide, by decide, by decide⟩

/-- C6 (amended): after every sequence of trail operations in which each
added literal's variable is unassigned at the time (the debug assertions
pass) and every backtrack pivot is at least 1, the number of literals stored
across the trail levels equals the size of the cumulative assignment, and
every literal on the trail appears in the cumulative assignment with its own
polarity. -/
theorem C6_trail_size_invariant_amended (t : Trail) (h : ReachableTrail t) :
    (flatLits t).length = t.assignment.size ∧
    ∀ l ∈ flatLits t, t.assignment.get l.var = some l.polarity := by
  obtain ⟨hperm, hnd, _⟩ := trailInv_reachable h
  constructor
  · show _ = t.cumulative_assignment.values.length
    rw [hperm.length_eq]
    unfold pairsOf
    rw [List.length_map]
  · intro l hl
    have hmem : (l.var, l.polarity) ∈ t.cumulative_assignment.values :=
      hperm.mem_iff.mpr (List.mem_map_of_mem _ hl)
    have hndv : (t.cumulative_assignment.values.map Prod.fst).Nodup := by
      rw [((hperm.map Prod.fst).nodup_iff), pairsOf_fst]
      exact hnd
    exact LiteralSet.get_of_mem hmem hndv

theorem C6_trail_size_invariant_witness :
    ∃ t : Trail, Trail.new.add_decision ⟨1⟩ = some t ∧
      (flatLits t).length = t.assignment.size ∧
      ∀ l ∈ flatLits t, t.assignment.get l.var = some l.polarity := by
  have hstep : Trail.new.add_decision ⟨1⟩ =
      some ⟨[TrailEntry.newEntry none, TrailEntry.newEntry (some ⟨1⟩)],
        LiteralSet.new.add ⟨1⟩⟩ := by decide
  exact ⟨_, hstep,
    C6_trail_size_invariant_amended _ (ReachableTrail.decision ⟨1⟩ ReachableTrail.init hstep)⟩

/-! ### Clause store (src/solver/clause_store.rs)

`ClauseList` owns all clause literals in one contiguous arena plus offsets.
`ClauseRef` specialises unit and binary clauses inline; longer clauses are
(offset, length) into the arena.  Rust panics (`mk_ref` on a zero-length
clause, the debug `ensure_sorted` assertion) are modelled as `none`. -/

inductive ClauseRef where
  | Unit (l : Literal)
  | Pair (a b : Literal)
  | Long (offset length : Nat)
deriving DecidableEq

/-- `ClauseRef::len`. -/
def ClauseRef.len : ClauseRef → Nat
  | .Unit _ => 1
  | .Pair _ _ => 2
  | .Long _ length => length

structure ClauseList where
  literals : List Literal
  offsets : List Nat
deriving DecidableEq

/-- `ClauseRef::literals_from_list`. -/
def ClauseRef.literalsFrom (r : ClauseRef) (cl : ClauseList) : List Literal :=
  match r with
  | .Unit l => [l]
  | .Pair a b => [a, b]
  | .Long offset length => (cl.literals.drop offset).take length

/-- The full-order comparison used by `clause_literals.sort()` (`Ord` on the
packed u32). -/
def valLe (a b : Literal) : Prop := a.val ≤ b.val

instance : DecidableRel valLe := fun a b => inferInstanceAs (Decidable (a.val ≤ b.val))

/-- The `is_sorted` debug check of `ensure_sorted`. -/
def isSortedByVal : List Literal → Bool
  | a :: b :: r => decide (a.val ≤ b.val) && isSortedByVal (b :: r)
  | _ => true

namespace ClauseList

/-- `ClauseList::new`: append each clause's literals (sorted) to the arena,
recording its offset. -/
def new (clauses : List Clause) : ClauseList :=
  clauses.foldl
    (fun cl c =>
      ⟨cl.literals ++ List.insertionSort valLe c.literals,
       cl.offsets ++ [cl.literals.length]⟩)
    ⟨[], []⟩

/-- `ClauseList::mk_ref`: panics (`none`) on a zero-length clause; reads the
first one or two arena slots for the inline forms (`none` when out of
range, which the source would answer with an index panic). -/
def mkRef (cl : ClauseList) (offset length : Nat) : Option ClauseRef :=
  match length with
  | 0 => none
  | 1 => (cl.literals[offset]?).map (fun l => ClauseRef.Unit l)
  | 2 =>
    match cl.literals[offset]?, cl.literals[offset + 1]? with
    | some a, some b => some (ClauseRef.Pair a b)
    | _, _ => none
  | _ => some (ClauseRef.Long offset length)

/-- `ClauseList::get`. -/
def get (cl : ClauseList) (ix : Nat) : Option ClauseRef :=
  match cl.offsets[ix]? with
  | none => none
  | some offset => cl.mkRef offset ((cl.offsets[ix + 1]?).getD cl.literals.length - offset)

/-- Worker for `refsList`: resolve each index, `none` on the first panic. -/
def refsListGo (cl : ClauseList) : List Nat → Option (List ClauseRef)
  | [] => some []
  | i :: rest =>
    match cl.get i with
    | none => none
    | some r => (refsListGo cl rest).map (fun rs => r :: rs)

/-- `ClauseList::iter().collect()`: all clause references in order
(`none` if any `get` panics). -/
def refsList (cl : ClauseList) : Option (List ClauseRef) :=
  refsListGo cl (List.range cl.offsets.length)

/-- `ClauseList::contains`: scan every clause for an identical literal
sequence (the `ensure_sorted` debug assertion is checked by the caller
`addClause`). -/
def containsSeq (cl : ClauseList) (clause : List Literal) : Bool :=
  (List.range cl.offsets.length).any (fun ix =>
    match cl.get ix with
    | some r => decide (r.literalsFrom cl = clause)
    | none => false)

end ClauseList

inductive AddClauseResult where
  | duplicate
  | added (r : ClauseRef) (cl : ClauseList)
deriving DecidableEq

/-- `ClauseList::add_clause`: `None` result models the skipped duplicate;
the outer `Option` models the panics (`ensure_sorted`, zero-length
`mk_ref`). -/
def ClauseList.addClause (cl : ClauseList) (clause : List Literal) :
    Option AddClauseResult :=
  if isSortedByVal clause then
    if cl.containsSeq clause then some .duplicate
    else
      (ClauseList.mkRef ⟨cl.literals ++ clause, cl.offsets ++ [cl.literals.length]⟩
          cl.literals.length clause.length).map
        (fun r => .added r ⟨cl.literals ++ clause, cl.offsets ++ [cl.literals.length]⟩)
  else none

/-! ### Clause index (src/solver/clause_index.rs)

Hash maps and hash sets are modelled as association lists / duplicate-free
lists; only keyed lookups and membership are ever used, except for the
per-variable occurrence lists whose order (clause insertion order) is kept. -/

/-- Hash-set insert (idempotent). -/
def setInsert (s : List Nat) (x : Nat) : List Nat := if x ∈ s then s else s ++ [x]

/-- Hash-set remove. -/
def setRemove (s : List Nat) (x : Nat) : List Nat := s.filter (fun y => !(y == x))

/-- `by_var.entry(var).or_insert(vec![]).push(ix)`. -/
def byVarPush (bv : List (Nat × List Nat)) (v : Nat) (ix : Nat) :
    List (Nat × List Nat) :=
  if bv.any (fun kv => kv.1 == v) then
    bv.map (fun kv => if kv.1 == v then (kv.1, kv.2 ++ [ix]) else kv)
  else bv ++ [(v, [ix])]

/-- `by_var.get(&var)`. -/
def byVarGet (bv : List (Nat × List Nat)) (v : Nat) : Option (List Nat) :=
  (bv.find? (fun kv => kv.1 == v)).map (fun kv => kv.2)

structure ClauseIndex where
  byVar : List (Nat × List Nat)
  resolvedVars : List Nat
  clauseRefIndexes : List (ClauseRef × Nat)
  freeVarCount : List Nat
  noFreeVarClauses : List Nat
  oneFreeVarClauses : List Nat
  twoFreeVarClauseCount : Nat
deriving DecidableEq

namespace ClauseIndex

/-- The classification loop of `ClauseIndex::new`: an empty clause is a
fatal error (`none`); unit clauses seed the one-free bucket; the rest are
counted. -/
def initBuckets : List (Nat × ClauseRef) → List Nat × Nat → Option (List Nat × Nat)
  | [], acc => some acc
  | (i, c) :: rest, (oneSet, twoCount) =>
    match c.len with
    | 0 => none
    | 1 => initBuckets rest (setInsert oneSet i, twoCount)
    | _ => initBuckets rest (oneSet, twoCount + 1)

/-- `ClauseIndex::new` (all literals assumed free). -/
def new (cl : ClauseList) (clauses : List ClauseRef) : Option ClauseIndex :=
  let enumd := clauses.enum
  let bv := enumd.foldl
    (fun acc ic =>
      (ic.2.literalsFrom cl).foldl (fun acc2 lit => byVarPush acc2 lit.var ic.1) acc)
    []
  match initBuckets enumd ([], 0) with
  | none => none
  | some (oneSet, twoCount) =>
    some ⟨bv, [], enumd.map (fun ic => (ic.2, ic.1)), clauses.map ClauseRef.len,
      [], oneSet, twoCount⟩

/-- One iteration of the `mark_resolved` loop: decrement the clause's free
count and transition its bucket membership. -/
def resolveStep (acc : ClauseIndex) (ix : Nat) : ClauseIndex :=
  let newCount := acc.freeVarCount.getD ix 0 - 1
  let fvc := acc.freeVarCount.set ix newCount
  match newCount with
  | 0 =>
    { acc with
        freeVarCount := fvc
        oneFreeVarClauses := setRemove acc.oneFreeVarClauses ix
        noFreeVarClauses := setInsert acc.noFreeVarClauses ix }
  | 1 =>
    { acc with
        freeVarCount := fvc
        oneFreeVarClauses := setInsert acc.oneFreeVarClauses ix
        twoFreeVarClauseCount := acc.twoFreeVarClauseCount - 1 }
  | _ => { acc with freeVarCount := fvc }

/-- `ClauseIndex::mark_resolved`. -/
def markResolved (idx : ClauseIndex) (v : Nat) : ClauseIndex :=
  let start := { idx with resolvedVars := setInsert idx.resolvedVars v }
  match byVarGet idx.byVar v with
  | none => start
  | some ixes => ixes.foldl resolveStep start

/-- One iteration of the `mark_unresolved` loop. -/
def unresolveStep (acc : ClauseIndex) (ix : Nat) : ClauseIndex :=
  let newCount := acc.freeVarCount.getD ix 0 + 1
  let fvc := acc.freeVarCount.set ix newCount
  match newCount with
  | 0 =>
    { acc with
        freeVarCount := fvc
        noFreeVarClauses := setInsert acc.noFreeVarClauses ix }
  | 1 =>
    { acc with
        freeVarCount := fvc
        noFreeVarClauses := setRemove acc.noFreeVarClauses ix
        oneFreeVarClauses := setInsert acc.oneFreeVarClauses ix }
  | 2 =>
    { acc with
        freeVarCount := fvc
        oneFreeVarClauses := setRemove acc.oneFreeVarClauses ix
        twoFreeVarClauseCount := acc.twoFreeVarClauseCount + 1 }
  | _ => { acc with freeVarCount := fvc }

/-- `ClauseIndex::mark_unresolved`. -/
def markUnresolved (idx : ClauseIndex) (v : Nat) : ClauseIndex :=
  let start := { idx with resolvedVars := setRemove idx.resolvedVars v }
  match byVarGet idx.byVar v with
  | none => start
  | some ixes => ixes.foldl unresolveStep start

/-- `ClauseIndex::add_clause`: free count against the currently resolved
variables; bucket by that count; the occurrence lists are NOT updated. -/
def addClause (idx : ClauseIndex) (clause : ClauseRef) (literals : List Literal) :
    ClauseIndex :=
  let ix := idx.freeVarCount.length
  let freeCount := (literals.filter (fun lit => decide (lit.var ∉ idx.resolvedVars))).length
  let base := { idx with
    clauseRefIndexes := idx.clauseRefIndexes ++ [(clause, ix)]
    freeVarCount := idx.freeVarCount ++ [freeCount] }
  match freeCount with
  | 0 => { base with noFreeVarClauses := setInsert base.noFreeVarClauses ix }
  | 1 => { base with oneFreeVarClauses := setInsert base.oneFreeVarClauses ix }
  | _ => { base with twoFreeVarClauseCount := base.twoFreeVarClauseCount + 1 }

end ClauseIndex

/-! ### ClauseStore: the store plus its index -/

structure ClauseStore where
  clauses : ClauseList
  index : ClauseIndex
deriving DecidableEq

namespace ClauseStore

/-- `ClauseStore::new`. -/
def new (clauseVals : List Clause) : Option ClauseStore :=
  match (ClauseList.new clauseVals).refsList with
  | none => none
  | some refs =>
    match ClauseIndex.new (ClauseList.new clauseVals) refs with
    | none => none
    | some idx => some ⟨ClauseList.new clauseVals, idx⟩

/-- `ClauseStore::get`. -/
def get (s : ClauseStore) (ix : Nat) : Option ClauseRef := s.clauses.get ix

/-- `ClauseStore::mark_resolved`. -/
def markResolved (s : ClauseStore) (v : Nat) : ClauseStore :=
  ⟨s.clauses, s.index.markResolved v⟩

/-- `ClauseStore::mark_unresolved`. -/
def markUnresolved (s : ClauseStore) (v : Nat) : ClauseStore :=
  ⟨s.clauses, s.index.markUnresolved v⟩

/-- `ClauseStore::add_clause`: on a duplicate the list returns `None` and the
`?` operator skips the index update, leaving the whole store untouched. -/
def addClause (s : ClauseStore) (clauseLiterals : List Literal) :
    Option (Option ClauseRef × ClauseStore) :=
  match s.clauses.addClause clauseLiterals with
  | none => none
  | some .duplicate => some (none, s)
  | some (.added r cl') => some (some r, ⟨cl', s.index.addClause r clauseLiterals⟩)

/-- `ClauseIndexView::find_unit_prop_candidates`: the occurrence list of the
literal's VARIABLE, filtered by the one-free bucket, resolved to refs. -/
def findUnitPropCandidates (s : ClauseStore) (literal : Literal) : List ClauseRef :=
  match byVarGet s.index.byVar literal.var with
  | none => []
  | some ixes =>
    (ixes.filter (fun ix => decide (ix ∈ s.index.oneFreeVarClauses))).filterMap s.get

/-- `ClauseIndexView::find_evaluatable_candidates`. -/
def findEvaluatableCandidates (s : ClauseStore) (literal : Literal) : List ClauseRef :=
  match byVarGet s.index.byVar literal.var with
  | none => []
  | some ixes =>
    (ixes.filter (fun ix => decide (ix ∈ s.index.noFreeVarClauses))).filterMap s.get

/-- `ClauseIndexView::all_clauses_resolved`. -/
def allClausesResolved (s : ClauseStore) : Bool :=
  s.index.noFreeVarClauses.length == s.index.freeVarCount.length

end ClauseStore

/-! ### Claim C9: duplicate learnt clauses are dropped without any effect -/

/-- C9: adding a learnt clause whose literal sequence is identical to a
stored clause returns `None` and leaves the store and index completely
unchanged: no arena literals, no offset, no free-count or bucket entry. -/
theorem C9_duplicate_learnt_unchanged (s : ClauseStore) (lits : List Literal)
    (hsorted : isSortedByVal lits = true)
    (hdup : s.clauses.containsSeq lits = true) :
    s.addClause lits = some (none, s) := by
  unfold ClauseStore.addClause ClauseList.addClause
  rw [if_pos hsorted, if_pos hdup]

/-- The one-clause store used as the concrete C9 input. -/
def storeC9 : ClauseStore :=
  ⟨⟨[⟨1⟩], [0]⟩,
   ⟨[(0, [0])], [], [(ClauseRef.Unit ⟨1⟩, 0)], [1], [], [0], 0⟩⟩

theorem C9_duplicate_learnt_unchanged_witness :
    ClauseStore.new [⟨0, [⟨1⟩]⟩] = some storeC9 ∧
    storeC9.addClause [⟨1⟩] = some (none, storeC9) :=
  ⟨by decide, C9_duplicate_learnt_unchanged storeC9 [⟨1⟩] (by decide) (by decide)⟩

/-! ### Knowledge graph (src/solver/knowledge_graph.rs) -/

structure KgNode where
  trigger : Option Nat
  decision : Option Nat
  clause : Option ClauseRef
deriving DecidableEq

structure KnowledgeGraph where
  vertices : List KgNode
deriving DecidableEq

namespace KnowledgeGraph

/-- `KnowledgeGraph::new(variable_count)`. -/
def new (variableCount : Nat) : KnowledgeGraph :=
  ⟨List.replicate variableCount ⟨none, none, none⟩⟩

/-- `KnowledgeGraph::add_decision` (an out-of-range variable panics in the
source; `List.set` is then a no-op, never reached in the modelled runs). -/
def addDecision (kg : KnowledgeGraph) (decision : Literal) : KnowledgeGraph :=
  ⟨kg.vertices.set decision.var ⟨none, some decision.var, none⟩⟩

/-- `KnowledgeGraph::add_inferred`. -/
def addInferred (kg : KnowledgeGraph) (inferred trigger : Literal)
    (decision : Option Literal) (clause : ClauseRef) : KnowledgeGraph :=
  ⟨kg.vertices.set inferred.var ⟨some trigger.var, decision.map Literal.var, some clause⟩⟩

/-- `KnowledgeGraph::vertex` (index panic modelled as `none`). -/
def vertex (kg : KnowledgeGraph) (v : Nat) : Option KgNode := kg.vertices[v]?

end KnowledgeGraph

/-! ### Conflict analysis (src/solver/backtrack.rs)

`analyse_conflict` walks the current level in reverse trail order, resolving
the conflict clause against antecedents until exactly one cut variable is at
the current level (the first UIP), then derives the learnt clause and the
backjump level.  The helpers `Trail::find_decision_level`,
`TrailEntry::iter_literals` and the literal-valued `LiteralSet::get` it calls
are absent from the sources and are modelled from the spec below. -/

structure Conflict where
  conflicting_decision : Option Literal
  conflicting_literal : Literal
  conflicting_clause : ClauseRef
deriving DecidableEq

structure AnalyzedConflict where
  unique_implication_point : Nat
  learnt_clause : List Literal
  second_highest_decision_level : Nat
deriving DecidableEq

/-- Modelled from the spec: `Trail::find_decision_level(var)` (used by the
conflict analyser, absent from trail.rs) — "the level at which `var` was
placed" (spec section 4.2): the index of the trail entry holding the
variable. -/
def Trail.findDecisionLevel (t : Trail) (v : Nat) : Option Nat :=
  t.trail.findIdx? (fun e => (entryFlat e).any (fun l => l.var == v))

/-- Modelled from the spec: `TrailEntry::iter_literals` (used by the conflict
analyser, absent from trail.rs) — a level "begins with one decision literal
followed by zero or more inferred literals" (spec section 3). -/
def TrailEntry.iterLiterals (e : TrailEntry) : List Literal := entryFlat e

/-- `Trail::assignments_since_last_decision`. -/
def Trail.assignmentsSinceLastDecision (t : Trail) : LiteralSet :=
  match t.trail.getLast? with
  | some e => e.all
  | none => LiteralSet.new

/-- Modelled from the spec: `LiteralSet::contains_var` (used by the conflict
analyser, absent from assignment_set.rs) — whether the variable is assigned
in the cumulative assignment. -/
def LiteralSet.containsVar (s : LiteralSet) (v : Nat) : Bool := (s.get v).isSome

/-- Modelled from the spec: the literal-valued `assignment.get(v)` used by
the conflict analyser (assignment_set.rs returns only the polarity) — the
literal currently assigned to `v`. -/
def LiteralSet.literalOf (s : LiteralSet) (v : Nat) : Option Literal :=
  (s.get v).map (fun b => ⟨2 * v + (if b then 1 else 0)⟩)

/-- `cut_edge.extend(vars)` on the hash set, modelled as an insertion-ordered
duplicate-free list. -/
def cutExtend (cut : List Nat) (vars : List Nat) : List Nat := vars.foldl setInsert cut

/-- `sort_and_dedupe` (src/solver/sorted_vec.rs): sort and remove
consecutive duplicates. -/
def sortAndDedupe (lits : List Literal) : List Literal :=
  dedupAdj (List.insertionSort valLe lits)

namespace ConflictAnalyzer

/-- The reverse walk of `find_unique_implication_point`: panics (`none`) on a
missing vertex, an empty current-level intersection, an unassigned cut
variable, or an exhausted trail ("could not find UIP"). -/
def findUIPLoop (store : ClauseStore) (kg : KnowledgeGraph)
    (assignment currentLevel : LiteralSet) :
    List Literal → List Nat → Option (Nat × List Literal)
  | [], _ => none
  | cl :: rest, cut =>
    match kg.vertex cl.var with
    | none => none
    | some v =>
      let cut' :=
        match v.clause with
        | some cref =>
          setRemove (cutExtend cut ((cref.literalsFrom store.clauses).map Literal.var)) cl.var
        | none => cut
      match cut'.filter (fun w => currentLevel.containsVar w) with
      | [] => none
      | [u] =>
        match cut'.mapM (fun w => assignment.literalOf w) with
        | none => none
        | some lits => some (u, sortAndDedupe lits)
      | _ :: _ :: _ => findUIPLoop store kg assignment currentLevel rest cut'

/-- `ConflictAnalyzer::find_unique_implication_point`. -/
def findUniqueImplicationPoint (store : ClauseStore) (trail : Trail)
    (kg : KnowledgeGraph) (conflict : Conflict) : Option (Nat × List Literal) :=
  match trail.trail.getLast? with
  | none => none
  | some lastEntry =>
    findUIPLoop store kg trail.assignment trail.assignmentsSinceLastDecision
      lastEntry.iterLiterals.reverse
      (cutExtend [] ((conflict.conflicting_clause.literalsFrom store.clauses).map Literal.var))

/-- The per-literal decision-level computation of `analyse_conflict`:
`knowledge_graph.vertex(l.var()).decision.unwrap_or(l.var())`, then
`trail.find_decision_level(decision).unwrap_or(0)`. -/
def edgeLevel (trail : Trail) (kg : KnowledgeGraph) (l : Literal) : Option Nat :=
  match kg.vertex l.var with
  | none => none
  | some v => some ((trail.findDecisionLevel (v.decision.getD l.var)).getD 0)

/-- `ConflictAnalyzer::analyse_conflict`. -/
def analyseConflict (store : ClauseStore) (trail : Trail) (kg : KnowledgeGraph)
    (conflict : Conflict) : Option AnalyzedConflict :=
  match findUniqueImplicationPoint store trail kg conflict with
  | none => none
  | some (uip, edge) =>
    match edge.mapM (edgeLevel trail kg) with
    | none => none
    | some levels =>
      some ⟨uip, edge.map Literal.invert,
        ((levels.filter
            (fun lv => decide (lv ≠ trail.current_decision_level))).min?).getD 0⟩

end ConflictAnalyzer

/-! ### Claim C2: the backjump level -/

/-- The backjump level asserted by the claim: the MAXIMUM decision level
among the cut variables' levels that is strictly less than the current
decision level, or 0 if no such level exists. -/
def specClaimBackjumpLevel (levels : List Nat) (d : Nat) : Nat :=
  ((levels.filter (fun lv => decide (lv < d))).max?).getD 0

/-- The concrete conflict state used for claim C2: decisions x1, x2, x3 on
levels 1-3, x4 inferred at level 3 from clause 0 `(!x1 | !x2 | !x3 | x4)`,
and clause 1 `(!x1 | !x2 | !x4)` falsified. -/
def storeC2 : ClauseStore :=
  ⟨⟨[⟨2⟩, ⟨4⟩, ⟨6⟩, ⟨9⟩, ⟨2⟩, ⟨4⟩, ⟨8⟩], [0, 4]⟩,
   ⟨[(1, [0, 1]), (2, [0, 1]), (3, [0]), (4, [0, 1])], [],
    [(ClauseRef.Long 0 4, 0), (ClauseRef.Long 4 3, 1)], [4, 3], [], [], 2⟩⟩

def trailC2 : Trail :=
  ⟨[⟨none, [], ⟨[]⟩⟩,
    ⟨some ⟨3⟩, [], ⟨[(1, true)]⟩⟩,
    ⟨some ⟨5⟩, [], ⟨[(2, true)]⟩⟩,
    ⟨some ⟨7⟩, [⟨9⟩], ⟨[(3, true), (4, true)]⟩⟩],
   ⟨[(1, true), (2, true), (3, true), (4, true)]⟩⟩

def kgC2 : KnowledgeGraph :=
  ((((KnowledgeGraph.new 5).addDecision ⟨3⟩).addDecision ⟨5⟩).addDecision ⟨7⟩).addInferred
    ⟨9⟩ ⟨7⟩ (some ⟨7⟩) (ClauseRef.Long 0 4)

def conflictC2 : Conflict := ⟨some ⟨7⟩, ⟨9⟩, ClauseRef.Long 4 3⟩

/-- C2 (counterexample): in the state above the final cut is {x1, x2, x3}
with levels [1, 2, 3] and current level 3.  The claim demands the maximum
level strictly below 3, which is 2; the code takes the MINIMUM of the levels
different from 3 and returns 1. -/
theorem C2_backjump_level_counterexample :
    ClauseStore.new [⟨0, [⟨2⟩, ⟨4⟩, ⟨6⟩, ⟨9⟩]⟩, ⟨1, [⟨2⟩, ⟨4⟩, ⟨8⟩]⟩] = some storeC2 ∧
    ((((Trail.new.add_decision ⟨3⟩).bind (fun t => t.add_decision ⟨5⟩)).bind
        (fun t => t.add_decision ⟨7⟩)).bind (fun t => t.add_inferred ⟨9⟩)) = some trailC2 ∧
    (ConflictAnalyzer.findUniqueImplicationPoint storeC2 trailC2 kgC2 conflictC2).map
        (fun ue => ue.2.mapM (ConflictAnalyzer.edgeLevel trailC2 kgC2))
      = some (some [1, 2, 3]) ∧
    ConflictAnalyzer.analyseConflict storeC2 trailC2 kgC2 conflictC2 =
      some ⟨3, [⟨2⟩, ⟨4⟩, ⟨6⟩], 1⟩ ∧
    specClaimBackjumpLevel [1, 2, 3] trailC2.current_decision_level = 2 ∧
    (1 : Nat) ≠ 2 := by
  refine ⟨by decide, by decide, by decide, by decide, by decide, by decide⟩

theorem foldl_min_le_init : ∀ (xs : List Nat) (a : Nat), xs.foldl min a ≤ a
  | [], a => Nat.le_refl a
  | x :: xs, a => Nat.le_trans (foldl_min_le_init xs (min a x)) (Nat.min_le_left a x)

theorem foldl_min_le_mem : ∀ (xs : List Nat) (a b : Nat), b ∈ xs → xs.foldl min a ≤ b
  | [], _, b, h => absurd h (List.not_mem_nil b)
  | x :: xs, a, b, h => by
    rcases List.mem_cons.mp h with rfl | h'
    · exact Nat.le_trans (foldl_min_le_init xs (min a b)) (Nat.min_le_right a b)
    · exact foldl_min_le_mem xs (min a x) b h'

theorem foldl_min_mem : ∀ (xs : List Nat) (a : Nat), xs.foldl min a = a ∨ xs.foldl min a ∈ xs
  | [], _ => Or.inl rfl
  | x :: xs, a => by
    rcases foldl_min_mem xs (min a x) with h | h
    · rcases Nat.le_total a x with hax | hxa
      · left
        rw [List.foldl_cons, h, Nat.min_eq_left hax]
      · right
        rw [List.foldl_cons, h, Nat.min_eq_right hxa]
        exact List.mem_cons_self x xs
    · right
      exact List.mem_cons_of_mem _ h

theorem natMin?_mem_le {xs : List Nat} {m : Nat} (h : xs.min? = some m) :
    m ∈ xs ∧ ∀ b ∈ xs, m ≤ b := by
  cases xs with
  | nil => cases h
  | cons x xs =>
    have hdef : (x :: xs).min? = some (xs.foldl min x) := rfl
    rw [hdef, Option.some.injEq] at h
    constructor
    · rcases foldl_min_mem xs x with h1 | h1
      · rw [← h, h1]
        exact List.mem_cons_self x xs
      · rw [← h]
        exact List.mem_cons_of_mem _ h1
    · intro b hb
      rcases List.mem_cons.mp hb with rfl | hb'
      · rw [← h]
        exact foldl_min_le_init xs b
      · rw [← h]
        exact foldl_min_le_mem xs x b hb'

/-- C2 (amended): the backjump level returned by `analyse_conflict` is the
MINIMUM decision level among the final cut's levels that differs from the
current decision level, or 0 if every cut variable is at the current level:
it is a lower bound of those levels, and is either one of them or 0. -/
theorem C2_backjump_level_amended (store : ClauseStore) (trail : Trail)
    (kg : KnowledgeGraph) (conflict : Conflict) (ac : AnalyzedConflict)
    (h : ConflictAnalyzer.analyseConflict store trail kg conflict = some ac) :
    ∃ uip edge levels,
      ConflictAnalyzer.findUniqueImplicationPoint store trail kg conflict
        = some (uip, edge) ∧
      edge.mapM (ConflictAnalyzer.edgeLevel trail kg) = some levels ∧
      (∀ lv ∈ levels, lv ≠ trail.current_decision_level →
        ac.second_highest_decision_level ≤ lv) ∧
      (ac.second_highest_decision_level = 0 ∨
        (ac.second_highest_decision_level ∈ levels ∧
          ac.second_highest_decision_level ≠ trail.current_decision_level)) := by
  unfold ConflictAnalyzer.analyseConflict at h
  rcases hf : ConflictAnalyzer.findUniqueImplicationPoint store trail kg conflict
    with _ | ⟨uip, edge⟩
  · rw [hf] at h
    cases h
  · rw [hf] at h
    have h2 : (match edge.mapM (ConflictAnalyzer.edgeLevel trail kg) with
        | none => none
        | some levels =>
          some (⟨uip, edge.map Literal.invert,
            ((levels.filter
              (fun lv => decide (lv ≠ trail.current_decision_level))).min?).getD 0⟩
            : AnalyzedConflict)) = some ac := h
    rcases hm : edge.mapM (ConflictAnalyzer.edgeLevel trail kg) with _ | levels
    · rw [hm] at h2
      cases h2
    · rw [hm] at h2
      rw [Option.some.injEq] at h2
      have hshd : ac.second_highest_decision_level =
          ((levels.filter
            (fun lv => decide (lv ≠ trail.current_decision_level))).min?).getD 0 := by
        rw [← h2]
      refine ⟨uip, edge, levels, rfl, hm, ?_, ?_⟩
      · intro lv hlv hne
        cases hfl : levels.filter
            (fun lv => decide (lv ≠ trail.current_decision_level)) with
        | nil =>
          have hmem : lv ∈ levels.filter
              (fun lv => decide (lv ≠ trail.current_decision_level)) :=
            List.mem_filter.mpr ⟨hlv, by simpa using hne⟩
          rw [hfl] at hmem
          cases hmem
        | cons y ys =>
          have hmin : (y :: ys).min? = some (ys.foldl min y) := rfl
          have hspec := natMin?_mem_le hmin
          rw [hshd, hfl, hmin]
          show ys.foldl min y ≤ lv
          apply hspec.2
          have hmem : lv ∈ levels.filter
              (fun lv => decide (lv ≠ trail.current_decision_level)) :=
            List.mem_filter.mpr ⟨hlv, by simpa using hne⟩
          rw [hfl] at hmem
          exact hmem
      · cases hfl : levels.filter
            (fun lv => decide (lv ≠ trail.current_decision_level)) with
        | nil =>
          left
          rw [hshd, hfl]
          rfl
        | cons y ys =>
          right
          have hmin : (y :: ys).min? = some (ys.foldl min y) := rfl
          have hspec := natMin?_mem_le hmin
          have hmem : ys.foldl min y ∈ levels.filter
              (fun lv => decide (lv ≠ trail.current_decision_level)) := by
            rw [hfl]
            exact hspec.1
          have := List.mem_filter.mp hmem
          rw [hshd, hfl, hmin]
          exact ⟨this.1, by simpa using this.2⟩

theorem C2_backjump_level_witness :
    ∃ ac, ConflictAnalyzer.analyseConflict storeC2 trailC2 kgC2 conflictC2 = some ac ∧
      ∃ uip edge levels,
        ConflictAnalyzer.findUniqueImplicationPoint storeC2 trailC2 kgC2 conflictC2
          = some (uip, edge) ∧
        edge.mapM (ConflictAnalyzer.edgeLevel trailC2 kgC2) = some levels ∧
        (∀ lv ∈ levels, lv ≠ trailC2.current_decision_level →
          ac.second_highest_decision_level ≤ lv) ∧
        (ac.second_highest_decision_level = 0 ∨
          (ac.second_highest_decision_level ∈ levels ∧
            ac.second_highest_decision_level ≠ trailC2.current_decision_level)) := by
  have h : ConflictAnalyzer.analyseConflict storeC2 trailC2 kgC2 conflictC2 =
      some ⟨3, [⟨2⟩, ⟨4⟩, ⟨6⟩], 1⟩ := by decide
  exact ⟨_, h, C2_backjump_level_amended storeC2 trailC2 kgC2 conflictC2 _ h⟩

/-! ### The DFS search driver (src/solver/dfs.rs)

`Instance::solve` drives the search over a `SearchPath`.  The file is a
mid-refactor snapshot: it calls `UnitPropagator::initial_unit_propagation`
(absent from unit_propagator.rs, modelled from the spec below), passes a
`SearchPath` where the propagator expects a `DFSPath` (the used operations
coincide and are modelled on `SearchPath`), and its backtrack treats the
`Vec<Literal>` field `chosen` as a single literal (decision entries hold
exactly one literal; modelled by `chosenPolarity`).  The knowledge graph is
only written, never read, in this driver, so it cannot affect `solve`'s
result and is omitted from the state.  Panics and unmodelled situations
surface as the `stuck` outcome, distinct from `unsat`. -/

structure SearchPathEntry where
  chosen : List Literal
  inferred : List Literal
deriving DecidableEq

structure SearchPath where
  initial_inferred_literals : List Literal
  path : List SearchPathEntry
  current_assignments : LiteralSet
  assignments_since_last_step : List Literal
deriving DecidableEq

namespace SearchPath

/-- `SearchPath::new`. -/
def new : SearchPath := ⟨[], [⟨[], []⟩], LiteralSet.new, []⟩

/-- `SearchPath::step`: assign the decision, mark it resolved, open a new
path entry. -/
def step (p : SearchPath) (store : ClauseStore) (lit : Literal) :
    SearchPath × ClauseStore :=
  (⟨p.initial_inferred_literals, p.path ++ [⟨[lit], []⟩],
    p.current_assignments.add lit, [lit]⟩,
   store.markResolved lit.var)

/-- `path.last_mut().unwrap()` update appending to `chosen` (the unwrap
panic on an empty path is unreachable: the path always holds the root). -/
def pushLastChosen : List SearchPathEntry → Literal → List SearchPathEntry
  | [], _ => []
  | [e], l => [⟨e.chosen ++ [l], e.inferred⟩]
  | e :: rest, l => e :: pushLastChosen rest l

/-- Same, appending to `inferred`. -/
def pushLastInferred : List SearchPathEntry → Literal → List SearchPathEntry
  | [], _ => []
  | [e], l => [⟨e.chosen, e.inferred ++ [l]⟩]
  | e :: rest, l => e :: pushLastInferred rest l

/-- `SearchPath::add_initial_unit`. -/
def add_initial_unit (p : SearchPath) (lit : Literal) : SearchPath :=
  ⟨p.initial_inferred_literals, pushLastChosen p.path lit,
   p.current_assignments.add lit, p.assignments_since_last_step ++ [lit]⟩

/-- `SearchPath::add_inferred`. -/
def add_inferred (p : SearchPath) (lit : Literal) : SearchPath :=
  ⟨p.initial_inferred_literals, pushLastInferred p.path lit,
   p.current_assignments.add lit, p.assignments_since_last_step ++ [lit]⟩

end SearchPath

/-- The test `step.chosen.polarity()` of `SearchPath::backtrack`.  The
source line does not type-check (`chosen` is a `Vec<Literal>`); decision
entries hold exactly one literal, so the evident reading — that literal's
polarity, false for the root entry — is modelled.  (This branch is not
exercised by the run proved below.) -/
def chosenPolarity : List Literal → Bool
  | [l] => l.polarity
  | _ => false

/-- `path.iter().rposition(|step| step.chosen.polarity())`. -/
def rpositionLhs (l : List SearchPathEntry) : Option Nat :=
  match l.reverse.findIdx? (fun e => chosenPolarity e.chosen) with
  | none => none
  | some i => some (l.length - 1 - i)

inductive BacktrackOutcome where
  | noPoint
  | done (p : SearchPath) (s : ClauseStore) (dropped : List SearchPathEntry)
  | panicked
deriving DecidableEq

/-- `SearchPath::backtrack`: drop from the last positive decision on,
removing every dropped literal from the assignment and un-resolving it. -/
def SearchPath.backtrackDfs (p : SearchPath) (store : ClauseStore) : BacktrackOutcome :=
  match rpositionLhs p.path with
  | none => .noPoint
  | some ix =>
    match Trail.removeAll p.current_assignments
        ((p.path.drop ix).flatMap (fun e => e.chosen ++ e.inferred)) with
    | none => .panicked
    | some cum =>
      .done ⟨p.initial_inferred_literals, p.path.take ix, cum, []⟩
        (((p.path.drop ix).flatMap (fun e => e.chosen ++ e.inferred)).foldl
          (fun st l => st.markUnresolved l.var) store)
        (p.path.drop ix)

/-- `SearchPath::backtrack_and_pivot`: on success step into the inverted
pivot (the first dropped entry's decision) and answer true; answer false
when no backtrack point exists. -/
def SearchPath.backtrackAndPivot (p : SearchPath) (store : ClauseStore) :
    Option (Bool × SearchPath × ClauseStore) :=
  match p.backtrackDfs store with
  | .noPoint => some (false, p, store)
  | .panicked => none
  | .done p' store' dropped =>
    match dropped.head? with
    | none => none
    | some e0 =>
      match e0.chosen with
      | [pivot] => some (true, p'.step store' pivot.invert)
      | _ => none

/-! #### The unit propagator driven by the solve loop -/

inductive PropagationResultR where
  | Conflicted (literal : Literal) (conflictingClause : ClauseRef)
  | Inferred (literal : Literal)
  | Failed
  | Panicked
deriving DecidableEq

def propagateUnitRGo (assignment : LiteralSet) (clause : ClauseRef) :
    List Literal → Option Literal → PropagationResultR
  | [], lastUnknown =>
    match lastUnknown with
    | some l => .Inferred l
    | none => .Panicked
  | l :: rest, lastUnknown =>
    match assignment.get l.var with
    | some s =>
      if s = l.polarity then .Conflicted l clause
      else propagateUnitRGo assignment clause rest lastUnknown
    | none =>
      match lastUnknown with
      | some _ => .Failed
      | none => propagateUnitRGo assignment clause rest (some l)

/-- `UnitPropagator::propagate_unit` applied to an arena clause reference
(the same walk as `propagate_unit` on a `Clause`). -/
def propagateUnitR (assignment : LiteralSet) (store : ClauseStore) (c : ClauseRef) :
    PropagationResultR :=
  propagateUnitRGo assignment c (c.literalsFrom store.clauses) none

inductive CollectResult where
  | conflict (literal : Literal) (clause : ClauseRef)
  | failed
  | collected (lits : List Literal)
deriving DecidableEq

/-- The candidate loop of `propagate_units`: stop at the first conflict;
`Failed` (and the `unwrap` panic) hit the `panic!("Failed unit prop??")`
arm. -/
def collectInferred (store : ClauseStore) (assignment : LiteralSet) :
    List ClauseRef → List Literal → CollectResult
  | [], acc => .collected acc
  | c :: rest, acc =>
    match propagateUnitR assignment store c with
    | .Conflicted l cc => .conflict l cc
    | .Inferred l => collectInferred store assignment rest (acc ++ [l])
    | .Failed => .failed
    | .Panicked => .failed

/-- `UnitPropagator::propagate_units`: the work queue is a `VecDeque` that
is extended at the back and popped from the back. -/
def propagateUnitsLoop (fuel : Nat) (store : ClauseStore) (p : SearchPath)
    (queue : List Literal) :
    Option (Option (Literal × ClauseRef) × SearchPath × ClauseStore) :=
  match fuel with
  | 0 => none
  | fuel + 1 =>
    match queue.getLast? with
    | none => some (none, p, store)
    | some literal =>
      match collectInferred store p.current_assignments
          (store.findUnitPropCandidates literal) [] with
      | .conflict l cc => some (some (l, cc), p, store)
      | .failed => none
      | .collected lits =>
        let lits' := dedupAdj (List.insertionSort valLe lits)
        let ps := lits'.foldl
          (fun (acc : SearchPath × ClauseStore) l =>
            (acc.1.add_inferred l, acc.2.markResolved l.var)) (p, store)
        propagateUnitsLoop fuel ps.2 ps.1 (queue.dropLast ++ lits')

/-- `UnitPropagator::evaluate`: scan the literals assigned since the last
decision; report the first evaluatable candidate clause that is false. -/
def evalLoop (assignment : LiteralSet) (store : ClauseStore) :
    List Literal → Option (Literal × ClauseRef)
  | [] => none
  | lit :: rest =>
    match (store.findEvaluatableCandidates lit).find?
        (fun c => assignment.evaluateList (c.literalsFrom store.clauses)
          == EvaluationResult.False) with
    | some c => some (lit, c)
    | none => evalLoop assignment store rest

/-- The literal of a unit clause reference. -/
def unitLit : ClauseRef → Option Literal
  | .Unit l => some l
  | _ => none

/-- Adjacent same-variable test on a sorted literal list (the conflicting
initial units check). -/
def hasAdjSameVar : List Literal → Bool
  | a :: b :: r => a.var == b.var || hasAdjSameVar (b :: r)
  | _ => false

/-- Modelled from the spec: `UnitPropagator::initial_unit_propagation`
called by `Instance::solve` is absent from unit_propagator.rs.  Per spec
section 4.6 (`Init`) and the sibling `find_inital_assignment`, it collects
the literals of the input's unit clauses, reports a conflict when two unit
clauses force the same variable with opposite polarities, and otherwise
records each unit literal as an initial assignment and marks its variable
resolved. -/
def initialUnitPropagation (store : ClauseStore) (p : SearchPath) :
    Option (Option Literal × SearchPath × ClauseStore) :=
  match store.clauses.refsList with
  | none => none
  | some refs =>
    let lits := dedupAdj (List.insertionSort valLe (refs.filterMap unitLit))
    if hasAdjSameVar lits then
      some (lits.head?, p, store)
    else
      some (none,
        lits.foldl (fun acc l => acc.add_initial_unit l) p,
        lits.foldl (fun st l => st.markResolved l.var) store)

/-! #### Instance::solve -/

inductive SolveResult where
  | sat (assignment : LiteralSet)
  | unsat
  | stuck
deriving DecidableEq

/-- `TraversalPath::next`: the first variable (in registration order) not in
the current assignment. -/
def traversalNext (vars : List Nat) (p : SearchPath) : Option Nat :=
  vars.find? (fun v => (p.current_assignments.get v).isNone)

/-- The main loop of `Instance::solve` (lines 265-320): clause evaluation,
SAT check, unit propagation, SAT check, next decision.  Conflicts trigger
`backtrack_and_pivot`; a failed backtrack reports UNSAT. -/
def solveLoop (fuel : Nat) (vars : List Nat) (store : ClauseStore)
    (p : SearchPath) : SolveResult :=
  match fuel with
  | 0 => .stuck
  | fuel + 1 =>
    match evalLoop p.current_assignments store p.assignments_since_last_step with
    | some _ =>
      match p.backtrackAndPivot store with
      | none => .stuck
      | some (false, _, _) => .unsat
      | some (true, ps) => solveLoop fuel vars ps.2 ps.1
    | none =>
      if store.allClausesResolved then .sat p.current_assignments
      else
        match propagateUnitsLoop fuel store p p.assignments_since_last_step with
        | none => .stuck
        | some (some _, p1, store1) =>
          match p1.backtrackAndPivot store1 with
          | none => .stuck
          | some (false, _, _) => .unsat
          | some (true, ps) => solveLoop fuel vars ps.2 ps.1
        | some (none, p1, store1) =>
          if store1.allClausesResolved then .sat p1.current_assignments
          else
            match traversalNext vars p1 with
            | some v =>
              match Literal.new v true with
              | none => .stuck
              | some lit =>
                let ps := p1.step store1 lit
                solveLoop fuel vars ps.2 ps.1
            | none => solveLoop fuel vars store1 p1

/-- `Instance::new` followed by `Instance::solve`: build the clauses with
`Clause::new_with_id`, build the store and index, run initial unit
propagation (UNSAT on an initial conflict), report SAT if everything is
already resolved, make the first decision, and enter the loop. -/
def instanceSolve (fuel : Nat) (vars : List Nat) (cnf : List (List Literal)) :
    SolveResult :=
  match cnf.enum.mapM (fun ic => Clause.newWithId ic.1 ic.2) with
  | none => .stuck
  | some clauses =>
    match ClauseStore.new clauses with
    | none => .stuck
    | some store =>
      match initialUnitPropagation store SearchPath.new with
      | none => .stuck
      | some (some _, _, _) => .unsat
      | some (none, p1, store1) =>
        if store1.allClausesResolved then .sat p1.current_assignments
        else
          match traversalNext vars p1 with
          | none => .stuck
          | some v =>
            match Literal.new v true with
            | none => .stuck
            | some lit =>
              let ps := p1.step store1 lit
              solveLoop fuel vars ps.2 ps.1

/-! ### Claim C1: soundness of SAT reports -/

/-- C1 (code bug): on the instance with variables x0, x1, x2 and clauses
`(!x0 | x1)`, `(!x0 | !x2)`, `(!x1 | x2)`, the solver decides x0 = true,
infers x1 = true and x2 = false in the same propagation round (falsifying
the third clause), and — because every free count is now 0 — reports SAT
right after propagation without re-running the evaluation sweep.  The
returned assignment falsifies the input clause `(!x1 | x2)`. -/
theorem C1_solve_unsound :
    instanceSolve 10 [0, 1, 2] [[⟨0⟩, ⟨3⟩], [⟨0⟩, ⟨4⟩], [⟨2⟩, ⟨5⟩]]
      = SolveResult.sat ⟨[(0, true), (1, true), (2, false)]⟩ ∧
    Clause.newWithId 2 [⟨2⟩, ⟨5⟩] = some ⟨2, [⟨2⟩, ⟨5⟩]⟩ ∧
    (LiteralSet.mk [(0, true), (1, true), (2, false)]).evaluate ⟨2, [⟨2⟩, ⟨5⟩]⟩
      = EvaluationResult.False := by
  refine ⟨by decide, by decide, by decide⟩

/-! ### Claim C5: the unit-propagation candidate set

`find_unit_prop_candidates` consults only the occurrence lists built once
by `ClauseIndex::new` (keyed by VARIABLE, both polarities) and the
one-free bucket.  The claim is settled against the states reachable by
the operations the solver performs on the index: `mark_resolved` on a
not-yet-resolved variable, `mark_unresolved` on a resolved one, and
`add_clause` for learnt clauses. -/

/-- The literal list of the `ix`-th clause of the freshly built arena for
`cs` (empty when out of range). -/
def initLits (cs : List Clause) (ix : Nat) : List Literal :=
  match (ClauseList.new cs).get ix with
  | none => []
  | some r => r.literalsFrom (ClauseList.new cs)

/-- Variables of the `ix`-th initial clause. -/
def initVars (cs : List Clause) (ix : Nat) : List Nat :=
  (initLits cs ix).map Literal.var

/-- Number of free (unresolved) variable occurrences of the `ix`-th
initial clause against a resolved-variable set. -/
def freeCountSpec (cs : List Clause) (resolved : List Nat) (ix : Nat) : Nat :=
  ((initLits cs ix).filter (fun l => decide (l.var ∉ resolved))).length

/-- The occurrence lists built by `ClauseIndex::new` on the fresh store. -/
def initByVar (cs : List Clause) : List (Nat × List Nat) :=
  match (ClauseList.new cs).refsList with
  | none => []
  | some refs =>
    refs.enum.foldl
      (fun acc ic =>
        (ic.2.literalsFrom (ClauseList.new cs)).foldl
          (fun acc2 lit => byVarPush acc2 lit.var ic.1) acc)
      []

/-- Candidate set in the claim's own words: the clauses of the CURRENT
store that contain the literal `l` ITSELF and whose free count is exactly
1, in store order. -/
def specClaimUnitPropCandidates (s : ClauseStore) (l : Literal) : List ClauseRef :=
  ((List.range s.clauses.offsets.length).filter (fun ix =>
      match s.clauses.get ix with
      | none => false
      | some r =>
        decide (l ∈ r.literalsFrom s.clauses) &&
          decide (((r.literalsFrom s.clauses).filter
              (fun x => decide (x.var ∉ s.index.resolvedVars))).length = 1))).filterMap
    s.clauses.get

/-- Candidate set the code computes (the amended description): the
clauses indexed at construction time (learnt clauses are never added to
the occurrence lists) that contain `l`'s VARIABLE in either polarity and
whose current free count is exactly 1, in construction order. -/
def specUnitPropCandidates (cs : List Clause) (resolved : List Nat) (l : Literal) :
    List ClauseRef :=
  ((List.range (ClauseList.new cs).offsets.length).filter (fun ix =>
      decide (l.var ∈ initVars cs ix) &&
        decide (freeCountSpec cs resolved ix = 1))).filterMap
    (ClauseList.new cs).get

theorem mem_setInsert (s : List Nat) (x y : Nat) :
    y ∈ setInsert s x ↔ y ∈ s ∨ y = x := by
  unfold setInsert
  by_cases hx : x ∈ s
  · rw [if_pos hx]
    constructor
    · exact Or.inl
    · rintro (h | rfl)
      · exact h
      · exact hx
  · rw [if_neg hx]
    simp

theorem mem_setRemove (s : List Nat) (x y : Nat) :
    y ∈ setRemove s x ↔ y ∈ s ∧ y ≠ x := by
  unfold setRemove
  simp

theorem byVarGet_map_update (v ix : Nat) (bv : List (Nat × List Nat)) :
    ∀ w : Nat,
      byVarGet (bv.map (fun kv => if kv.1 == v then (kv.1, kv.2 ++ [ix]) else kv)) w =
        (byVarGet bv w).map (fun lst => if w = v then lst ++ [ix] else lst) := by
  induction bv with
  | nil => intro w; rfl
  | cons kv rest ih =>
    obtain ⟨k, lst⟩ := kv
    intro w
    simp only [List.map_cons]
    by_cases hk : k = v
    · subst hk
      rw [if_pos (beq_self_eq_true k)]
      by_cases hw : w = k
      · subst hw
        simp [byVarGet, List.find?_cons]
      · have hbne : (k == w) = false :=
          beq_eq_false_iff_ne.mpr (fun h => hw h.symm)
        simpa [byVarGet, List.find?_cons, hbne] using ih w
    · have hkv : (k == v) = false := beq_eq_false_iff_ne.mpr hk
      rw [hkv]
      simp only [Bool.false_eq_true, if_false]
      by_cases hw : w = k
      · subst hw
        simp [byVarGet, List.find?_cons, hk]
      · have hbne : (k == w) = false :=
          beq_eq_false_iff_ne.mpr (fun h => hw h.symm)
        simpa [byVarGet, List.find?_cons, hbne] using ih w

theorem byVarGet_push_getD (bv : List (Nat × List Nat)) (v ix w : Nat) :
    (byVarGet (byVarPush bv v ix) w).getD [] =
      (byVarGet bv w).getD [] ++ (if w = v then [ix] else []) := by
  unfold byVarPush
  by_cases hany : bv.any (fun kv => kv.1 == v) = true
  · rw [if_pos hany, byVarGet_map_update]
    have hv : ∃ lst, byVarGet bv v = some lst := by
      obtain ⟨kv, hkv, hbeq⟩ := List.any_eq_true.mp hany
      have hsome := (@List.find?_isSome (Nat × List Nat) bv
        (fun kv => kv.1 == v)).mpr ⟨kv, hkv, hbeq⟩
      obtain ⟨kv2, hkv2⟩ := Option.isSome_iff_exists.mp hsome
      exact ⟨kv2.2, by unfold byVarGet; rw [hkv2]; rfl⟩
    by_cases hw : w = v
    · subst hw
      obtain ⟨lst, hlst⟩ := hv
      rw [hlst]
      simp
    · cases hlook : byVarGet bv w with
      | none => simp [hw]
      | some lst => simp [hw]
  · rw [if_neg hany]
    have hnone : bv.find? (fun kv => kv.1 == v) = none := by
      cases hfind : bv.find? (fun kv => kv.1 == v) with
      | none => rfl
      | some kv =>
        exact absurd (List.any_eq_true.mpr
          ⟨kv, List.mem_of_find?_eq_some hfind, List.find?_some hfind⟩) hany
    unfold byVarGet
    rw [List.find?_append]
    by_cases hw : w = v
    · subst hw
      rw [hnone]
      simp [List.find?_cons]
    · have hbne : (v == w) = false :=
        beq_eq_false_iff_ne.mpr (fun h => hw h.symm)
      cases hfind : bv.find? (fun kv => kv.1 == w) with
      | none => simp [hfind, List.find?_cons, hbne, hw]
      | some kv => simp [hfind, hw]

theorem byVarPush_foldl_getD (ix : Nat) :
    ∀ (lits : List Literal) (acc : List (Nat × List Nat)) (v : Nat),
      (lits.map Literal.var).Nodup →
      (byVarGet (lits.foldl (fun b lit => byVarPush b lit.var ix) acc) v).getD [] =
        (byVarGet acc v).getD [] ++
          (if v ∈ lits.map Literal.var then [ix] else [])
  | [], acc, v, _ => by simp
  | l :: rest, acc, v, hnd => by
    rw [List.map_cons] at hnd
    have hhead : l.var ∉ rest.map Literal.var := (List.nodup_cons.mp hnd).1
    have hrest : (rest.map Literal.var).Nodup := (List.nodup_cons.mp hnd).2
    simp only [List.foldl_cons]
    rw [byVarPush_foldl_getD ix rest (byVarPush acc l.var ix) v hrest,
        byVarGet_push_getD]
    by_cases hv : v = l.var
    · subst hv
      simp [hhead]
    · simp [hv, List.mem_cons]

theorem byVar_enumFrom_foldl_getD (cl : ClauseList) :
    ∀ (refs : List ClauseRef) (k : Nat) (acc : List (Nat × List Nat)) (v : Nat),
      (∀ r ∈ refs, ((r.literalsFrom cl).map Literal.var).Nodup) →
      (byVarGet
          ((List.enumFrom k refs).foldl
            (fun acc2 ic =>
              (ic.2.literalsFrom cl).foldl
                (fun acc3 lit => byVarPush acc3 lit.var ic.1) acc2)
            acc) v).getD [] =
        (byVarGet acc v).getD [] ++
          ((List.enumFrom k refs).filter
              (fun ic => decide (v ∈ (ic.2.literalsFrom cl).map Literal.var))).map
            Prod.fst
  | [], _, acc, v, _ => by simp
  | r :: rest, k, acc, v, hnd => by
    simp only [List.enumFrom_cons, List.foldl_cons, List.filter_cons]
    rw [byVar_enumFrom_foldl_getD cl rest (k + 1) _ v
          (fun r2 h => hnd r2 (List.mem_cons_of_mem r h)),
        byVarPush_foldl_getD k (r.literalsFrom cl) acc v (hnd r (List.mem_cons_self r rest))]
    by_cases hm : v ∈ (r.literalsFrom cl).map Literal.var
    · simp [hm, List.append_assoc]
    · simp [hm]

theorem enumFrom_filter_map_fst {α : Type _} (p : Nat × α → Bool) (q : Nat → Bool) :
    ∀ (xs : List α) (k : Nat),
      (∀ i (h : i < xs.length), p (k + i, xs.get ⟨i, h⟩) = q (k + i)) →
      ((List.enumFrom k xs).filter p).map Prod.fst =
        (List.range' k xs.length).filter q
  | [], k, _ => by simp
  | x :: xs, k, h => by
    have h0 : p (k, x) = q k := by simpa using h 0 (by simp)
    have hrec := enumFrom_filter_map_fst p q xs (k + 1) (fun i hi => by
      have h2 := h (i + 1) (by simpa using Nat.succ_lt_succ hi)
      rw [show k + (i + 1) = k + 1 + i by omega] at h2
      simpa using h2)
    simp only [List.enumFrom_cons, List.filter_cons, List.length_cons, List.range'_succ, h0]
    cases hq : q k with
    | true => simp [hrec]
    | false => simp [hrec]

theorem mem_enumFrom_iff {α : Type _} :
    ∀ (xs : List α) (k j : Nat) (c : α),
      ((j, c) ∈ List.enumFrom k xs) ↔ (k ≤ j ∧ xs[j - k]? = some c)
  | [], k, j, c => by simp
  | x :: xs, k, j, c => by
    rw [List.enumFrom_cons, List.mem_cons, mem_enumFrom_iff xs (k + 1) j c]
    constructor
    · rintro (heq | ⟨hle, hget⟩)
      · have h1 : j = k := congrArg Prod.fst heq
        have h2 : c = x := congrArg Prod.snd heq
        subst h1
        subst h2
        simp
      · refine ⟨by omega, ?_⟩
        rw [show j - k = (j - (k + 1)) + 1 by omega]
        simpa using hget
    · rintro ⟨hle, hget⟩
      by_cases hjk : j = k
      · subst hjk
        simp only [Nat.sub_self, List.getElem?_cons_zero] at hget
        exact Or.inl (by simp [Option.some.inj hget])
      · refine Or.inr ⟨by omega, ?_⟩
        rw [show j - k = (j - (k + 1)) + 1 by omega] at hget
        simpa using hget

theorem refsListGo_forall₂ (cl : ClauseList) :
    ∀ (ixs : List Nat) (out : List ClauseRef),
      ClauseList.refsListGo cl ixs = some out →
      List.Forall₂ (fun i r => cl.get i = some r) ixs out
  | [], out, h => by
    cases h
    exact List.Forall₂.nil
  | i :: rest, out, h => by
    simp only [ClauseList.refsListGo] at h
    cases hget : cl.get i with
    | none => rw [hget] at h; cases h
    | some r =>
      rw [hget] at h
      obtain ⟨rs, hrs, hout⟩ := Option.map_eq_some'.mp h
      exact hout ▸ List.Forall₂.cons hget (refsListGo_forall₂ cl rest rs hrs)

theorem refsList_spec (cl : ClauseList) (refs : List ClauseRef)
    (h : cl.refsList = some refs) :
    refs.length = cl.offsets.length ∧
      ∀ i, i < cl.offsets.length → refs[i]? = cl.get i := by
  have hf := refsListGo_forall₂ cl (List.range cl.offsets.length) refs h
  have hlen := hf.length_eq
  rw [List.length_range] at hlen
  refine ⟨hlen.symm, ?_⟩
  intro i hi
  obtain ⟨hl, hp⟩ := List.forall₂_iff_get.mp hf
  have hi1 : i < (List.range cl.offsets.length).length := by simpa using hi
  have hi2 : i < refs.length := by omega
  have hpt := hp i hi1 hi2
  rw [List.get_range] at hpt
  rw [List.getElem?_eq_getElem hi2]
  exact hpt.symm

theorem newFold_wf :
    ∀ (cls : List Clause) (acc : ClauseList),
      (∀ o ∈ acc.offsets, o ≤ acc.literals.length) →
      ∀ o ∈ (cls.foldl
          (fun cl c =>
            ⟨cl.literals ++ List.insertionSort valLe c.literals,
             cl.offsets ++ [cl.literals.length]⟩) acc).offsets,
        o ≤ (cls.foldl
          (fun cl c =>
            ⟨cl.literals ++ List.insertionSort valLe c.literals,
             cl.offsets ++ [cl.literals.length]⟩) acc).literals.length
  | [], _, hacc => hacc
  | c :: rest, acc, hacc => by
    simp only [List.foldl_cons]
    refine newFold_wf rest _ ?_
    intro o ho
    rcases List.mem_append.mp ho with h | h
    · exact (hacc o h).trans (by simp)
    · have heq : o = acc.literals.length := by simpa using h
      subst heq
      simp

theorem ClauseList_new_wf (cs : List Clause) :
    ∀ o ∈ (ClauseList.new cs).offsets, o ≤ (ClauseList.new cs).literals.length :=
  newFold_wf cs ⟨[], []⟩ (by simp)

theorem get_eq_of_offset (X : ClauseList) (ix o : Nat) (h : X.offsets[ix]? = some o) :
    X.get ix = X.mkRef o ((X.offsets[ix + 1]?).getD X.literals.length - o) := by
  unfold ClauseList.get
  rw [h]

theorem literalsFrom_length (cl : ClauseList)
    (hwf : ∀ o ∈ cl.offsets, o ≤ cl.literals.length)
    (ix : Nat) (r : ClauseRef) (h : cl.get ix = some r) :
    (r.literalsFrom cl).length = r.len := by
  cases hoff : cl.offsets[ix]? with
  | none =>
    rw [ClauseList.get, hoff] at h
    cases h
  | some o =>
    rw [get_eq_of_offset cl ix o hoff] at h
    have hnx : (cl.offsets[ix + 1]?).getD cl.literals.length ≤ cl.literals.length := by
      cases hn : cl.offsets[ix + 1]? with
      | none => simp
      | some o2 =>
        simpa using hwf o2 (List.mem_iff_getElem?.mpr ⟨ix + 1, hn⟩)
    rcases hlen : (cl.offsets[ix + 1]?).getD cl.literals.length - o with _ | _ | _ | k
    all_goals rw [hlen] at h
    · have h2 : (none : Option ClauseRef) = some r := h
      cases h2
    · have h2 : (cl.literals[o]?).map (fun l => ClauseRef.Unit l) = some r := h
      obtain ⟨l, _, hl2⟩ := Option.map_eq_some'.mp h2
      rw [← hl2]
      rfl
    · have h2 : (match cl.literals[o]?, cl.literals[o + 1]? with
          | some a, some b => some (ClauseRef.Pair a b)
          | _, _ => none) = some r := h
      cases ha : cl.literals[o]? with
      | none => rw [ha] at h2; cases h2
      | some a =>
        cases hb : cl.literals[o + 1]? with
        | none => rw [ha, hb] at h2; cases h2
        | some b =>
          rw [ha, hb] at h2
          have h3 : some (ClauseRef.Pair a b) = some r := h2
          cases h3
          rfl
    · have h2 : some (ClauseRef.Long o (k + 3)) = some r := h
      cases h2
      show ((cl.literals.drop o).take (k + 3)).length = k + 3
      rw [List.length_take, List.length_drop]
      omega

theorem mkRef_append (cl : ClauseList) (c : List Literal) (offs2 : List Nat)
    (o len : Nat) (hol : o + len ≤ cl.literals.length) :
    ClauseList.mkRef ⟨cl.literals ++ c, offs2⟩ o len = cl.mkRef o len := by
  rcases len with _ | _ | _ | k
  · rfl
  · show ((cl.literals ++ c)[o]?).map (fun l => ClauseRef.Unit l) =
      (cl.literals[o]?).map (fun l => ClauseRef.Unit l)
    rw [List.getElem?_append_left (by omega)]
  · show (match (cl.literals ++ c)[o]?, (cl.literals ++ c)[o + 1]? with
        | some a, some b => some (ClauseRef.Pair a b)
        | _, _ => none) =
      (match cl.literals[o]?, cl.literals[o + 1]? with
        | some a, some b => some (ClauseRef.Pair a b)
        | _, _ => none)
    rw [List.getElem?_append_left (show o < cl.literals.length by omega),
      List.getElem?_append_left (show o + 1 < cl.literals.length by omega)]
  · rfl

theorem get_append_step (cl : ClauseList) (c : List Literal) (ix : Nat)
    (hix : ix < cl.offsets.length)
    (hwf : ∀ o ∈ cl.offsets, o ≤ cl.literals.length) :
    ClauseList.get ⟨cl.literals ++ c, cl.offsets ++ [cl.literals.length]⟩ ix =
      cl.get ix := by
  have hoff : cl.offsets[ix]? = some cl.offsets[ix] := List.getElem?_eq_getElem hix
  have hoff2 : (cl.offsets ++ [cl.literals.length])[ix]? = some cl.offsets[ix] := by
    rw [List.getElem?_append_left hix]
    exact hoff
  have e1 := get_eq_of_offset ⟨cl.literals ++ c, cl.offsets ++ [cl.literals.length]⟩ ix
    cl.offsets[ix] hoff2
  have e2 := get_eq_of_offset cl ix cl.offsets[ix] hoff
  rw [e1, e2]
  have hnx : ((cl.offsets ++ [cl.literals.length])[ix + 1]?).getD
      (cl.literals ++ c).length = (cl.offsets[ix + 1]?).getD cl.literals.length := by
    by_cases h1 : ix + 1 < cl.offsets.length
    · rw [List.getElem?_append_left h1, List.getElem?_eq_getElem h1]
      rfl
    · have h2 : ix + 1 = cl.offsets.length := by omega
      have h3 : cl.offsets[ix + 1]? = none := List.getElem?_eq_none (by omega)
      rw [List.getElem?_append_right (by omega), h3]
      simp [h2]
  have hnx2 : (((ClauseList.mk (cl.literals ++ c)
        (cl.offsets ++ [cl.literals.length])).offsets[ix + 1]?).getD
      (ClauseList.mk (cl.literals ++ c)
        (cl.offsets ++ [cl.literals.length])).literals.length) =
      (cl.offsets[ix + 1]?).getD cl.literals.length := hnx
  rw [hnx2]
  have hnxle : (cl.offsets[ix + 1]?).getD cl.literals.length ≤ cl.literals.length := by
    cases hn : cl.offsets[ix + 1]? with
    | none => simp
    | some o2 =>
      simpa using hwf o2 (List.mem_iff_getElem?.mpr ⟨ix + 1, hn⟩)
  have hole : cl.offsets[ix] ≤ cl.literals.length := hwf _ (List.getElem_mem hix)
  exact mkRef_append cl c (cl.offsets ++ [cl.literals.length]) cl.offsets[ix] _ (by omega)

theorem filter_length_split (v : Nat) (p q : Literal → Bool) :
    ∀ lits : List Literal,
      (lits.map Literal.var).Nodup →
      (∀ l : Literal, l.var ≠ v → p l = q l) →
      (∀ l : Literal, l.var = v → p l = true) →
      (∀ l : Literal, l.var = v → q l = false) →
      (lits.filter p).length =
        (lits.filter q).length + (if v ∈ lits.map Literal.var then 1 else 0)
  | [], _, _, _, _ => by simp
  | l :: rest, hnd, hne, hvp, hvq => by
    rw [List.map_cons] at hnd
    have hhead : l.var ∉ rest.map Literal.var := (List.nodup_cons.mp hnd).1
    have hrest : (rest.map Literal.var).Nodup := (List.nodup_cons.mp hnd).2
    by_cases hl : l.var = v
    · have hfq : rest.filter q = rest.filter p :=
        List.filter_congr (fun x hx => by
          have hxv : x.var ≠ v := by
            intro hv
            have hmm : l.var ∈ rest.map Literal.var := by
              rw [hl, ← hv]
              exact List.mem_map_of_mem Literal.var hx
            exact hhead hmm
          exact (hne x hxv).symm)
      rw [List.filter_cons, List.filter_cons, hvp l hl, hvq l hl]
      rw [if_pos rfl, if_neg (by simp), hfq]
      have hm : v ∈ (l :: rest).map Literal.var := by
        rw [List.map_cons]
        exact List.mem_cons.mpr (Or.inl hl.symm)
      rw [if_pos hm]
      simp
    · have hql : q l = p l := (hne l hl).symm
      have ih := filter_length_split v p q rest hrest hne hvp hvq
      have hmem : v ∈ (l :: rest).map Literal.var ↔ v ∈ rest.map Literal.var := by
        rw [List.map_cons, List.mem_cons]
        exact ⟨fun h => h.elim (fun h2 => absurd h2.symm hl) id, Or.inr⟩
      rw [List.filter_cons, List.filter_cons, hql]
      simp only [hmem]
      cases hpl : p l with
      | false =>
        simp only [Bool.false_eq_true, if_false]
        exact ih
      | true =>
        rw [if_pos rfl, if_pos rfl]
        simp only [List.length_cons]
        rw [ih]
        omega

theorem freeCountSpec_congr (cs : List Clause) (ix : Nat) (R R2 : List Nat)
    (h : ∀ w ∈ initVars cs ix, (w ∈ R ↔ w ∈ R2)) :
    freeCountSpec cs R ix = freeCountSpec cs R2 ix := by
  unfold freeCountSpec
  congr 1
  apply List.filter_congr
  intro l hl
  have h2 := h l.var (List.mem_map_of_mem Literal.var hl)
  exact decide_eq_decide.mpr (not_congr h2)

theorem freeCountSpec_insert (cs : List Clause) (ix : Nat) (R : List Nat) (v : Nat)
    (hnd : (initVars cs ix).Nodup) (hv : v ∉ R) :
    freeCountSpec cs R ix =
      freeCountSpec cs (setInsert R v) ix +
        (if v ∈ initVars cs ix then 1 else 0) := by
  unfold freeCountSpec
  exact filter_length_split v _ _ (initLits cs ix) hnd
    (fun l hlv => decide_eq_decide.mpr (not_congr (by
      rw [mem_setInsert]
      exact ⟨Or.inl, fun h => h.elim id (fun h2 => absurd h2 hlv)⟩)))
    (fun l hlv => decide_eq_true (by rw [hlv]; exact hv))
    (fun l hlv => decide_eq_false (by
      rw [hlv]
      exact not_not_intro ((mem_setInsert R v v).mpr (Or.inr rfl))))

theorem freeCountSpec_remove (cs : List Clause) (ix : Nat) (R : List Nat) (v : Nat)
    (hnd : (initVars cs ix).Nodup) (hv : v ∈ R) :
    freeCountSpec cs (setRemove R v) ix =
      freeCountSpec cs R ix + (if v ∈ initVars cs ix then 1 else 0) := by
  unfold freeCountSpec
  exact filter_length_split v _ _ (initLits cs ix) hnd
    (fun l hlv => decide_eq_decide.mpr (not_congr (by
      rw [mem_setRemove]
      exact ⟨fun h => h.1, fun h => ⟨h, hlv⟩⟩)))
    (fun l hlv => decide_eq_true (by
      rw [hlv, mem_setRemove]
      exact fun h => h.2 rfl))
    (fun l hlv => decide_eq_false (by rw [hlv]; exact not_not_intro hv))

theorem resolveStep_eq (acc : ClauseIndex) (ix : Nat) :
    ClauseIndex.resolveStep acc ix =
      { acc with
          freeVarCount := acc.freeVarCount.set ix (acc.freeVarCount.getD ix 0 - 1)
          oneFreeVarClauses :=
            if acc.freeVarCount.getD ix 0 - 1 = 0 then
              setRemove acc.oneFreeVarClauses ix
            else if acc.freeVarCount.getD ix 0 - 1 = 1 then
              setInsert acc.oneFreeVarClauses ix
            else acc.oneFreeVarClauses
          noFreeVarClauses :=
            if acc.freeVarCount.getD ix 0 - 1 = 0 then
              setInsert acc.noFreeVarClauses ix
            else acc.noFreeVarClauses
          twoFreeVarClauseCount :=
            if acc.freeVarCount.getD ix 0 - 1 = 1 then
              acc.twoFreeVarClauseCount - 1
            else acc.twoFreeVarClauseCount } := by
  unfold ClauseIndex.resolveStep
  rcases hc : acc.freeVarCount.getD ix 0 - 1 with _ | _ | k
  · simp
  · simp
  · simp

theorem unresolveStep_eq (acc : ClauseIndex) (ix : Nat) :
    ClauseIndex.unresolveStep acc ix =
      { acc with
          freeVarCount := acc.freeVarCount.set ix (acc.freeVarCount.getD ix 0 + 1)
          oneFreeVarClauses :=
            if acc.freeVarCount.getD ix 0 + 1 = 1 then
              setInsert acc.oneFreeVarClauses ix
            else if acc.freeVarCount.getD ix 0 + 1 = 2 then
              setRemove acc.oneFreeVarClauses ix
            else acc.oneFreeVarClauses
          noFreeVarClauses :=
            if acc.freeVarCount.getD ix 0 + 1 = 0 then
              setInsert acc.noFreeVarClauses ix
            else if acc.freeVarCount.getD ix 0 + 1 = 1 then
              setRemove acc.noFreeVarClauses ix
            else acc.noFreeVarClauses
          twoFreeVarClauseCount :=
            if acc.freeVarCount.getD ix 0 + 1 = 2 then
              acc.twoFreeVarClauseCount + 1
            else acc.twoFreeVarClauseCount } := by
  unfold ClauseIndex.unresolveStep
  rcases hc : acc.freeVarCount.getD ix 0 + 1 with _ | _ | _ | k
  · simp
  · simp
  · simp
  · simp

theorem resolveStep_fields (acc : ClauseIndex) (ix : Nat) :
    (ClauseIndex.resolveStep acc ix).resolvedVars = acc.resolvedVars ∧
    (ClauseIndex.resolveStep acc ix).byVar = acc.byVar ∧
    (ClauseIndex.resolveStep acc ix).freeVarCount =
      acc.freeVarCount.set ix (acc.freeVarCount.getD ix 0 - 1) := by
  rw [resolveStep_eq]
  exact ⟨rfl, rfl, rfl⟩

theorem resolveStep_oneFree_mem (acc : ClauseIndex) (ix j : Nat) (hj : j ≠ ix) :
    j ∈ (ClauseIndex.resolveStep acc ix).oneFreeVarClauses ↔
      j ∈ acc.oneFreeVarClauses := by
  rw [resolveStep_eq]
  show j ∈ (if acc.freeVarCount.getD ix 0 - 1 = 0 then
        setRemove acc.oneFreeVarClauses ix
      else if acc.freeVarCount.getD ix 0 - 1 = 1 then
        setInsert acc.oneFreeVarClauses ix
      else acc.oneFreeVarClauses) ↔ j ∈ acc.oneFreeVarClauses
  by_cases h0 : acc.freeVarCount.getD ix 0 - 1 = 0
  · rw [if_pos h0, mem_setRemove]
    exact ⟨fun h => h.1, fun h => ⟨h, hj⟩⟩
  · rw [if_neg h0]
    by_cases h2 : acc.freeVarCount.getD ix 0 - 1 = 1
    · rw [if_pos h2, mem_setInsert]
      exact ⟨fun h => h.elim id (fun h3 => absurd h3 hj), Or.inl⟩
    · rw [if_neg h2]

theorem resolveStep_oneFree_mem_self (acc : ClauseIndex) (ix : Nat)
    (h1 : ix ∈ acc.oneFreeVarClauses ↔ acc.freeVarCount.getD ix 0 = 1) :
    (ix ∈ (ClauseIndex.resolveStep acc ix).oneFreeVarClauses ↔
      acc.freeVarCount.getD ix 0 - 1 = 1) := by
  rw [resolveStep_eq]
  show ix ∈ (if acc.freeVarCount.getD ix 0 - 1 = 0 then
        setRemove acc.oneFreeVarClauses ix
      else if acc.freeVarCount.getD ix 0 - 1 = 1 then
        setInsert acc.oneFreeVarClauses ix
      else acc.oneFreeVarClauses) ↔ acc.freeVarCount.getD ix 0 - 1 = 1
  by_cases h0 : acc.freeVarCount.getD ix 0 - 1 = 0
  · rw [if_pos h0, mem_setRemove]
    constructor
    · exact fun h => absurd rfl h.2
    · intro h
      omega
  · rw [if_neg h0]
    by_cases h2 : acc.freeVarCount.getD ix 0 - 1 = 1
    · rw [if_pos h2, mem_setInsert]
      exact ⟨fun _ => h2, fun _ => Or.inr rfl⟩
    · rw [if_neg h2, h1]
      constructor
      · intro h
        exact absurd (show acc.freeVarCount.getD ix 0 - 1 = 0 by omega) h0
      · intro h
        exact absurd h h2

theorem foldl_resolveStep_spec :
    ∀ (todo : List Nat) (acc : ClauseIndex) (f : Nat → Nat),
      todo.Nodup →
      (∀ i ∈ todo, i < acc.freeVarCount.length) →
      (∀ i ∈ todo, acc.freeVarCount.getD i 0 = f i) →
      (∀ i ∈ todo, (i ∈ acc.oneFreeVarClauses ↔ f i = 1)) →
      (todo.foldl ClauseIndex.resolveStep acc).freeVarCount.length =
          acc.freeVarCount.length ∧
      (todo.foldl ClauseIndex.resolveStep acc).resolvedVars = acc.resolvedVars ∧
      (todo.foldl ClauseIndex.resolveStep acc).byVar = acc.byVar ∧
      (∀ j, (todo.foldl ClauseIndex.resolveStep acc).freeVarCount.getD j 0 =
        if j ∈ todo then f j - 1 else acc.freeVarCount.getD j 0) ∧
      (∀ j, j ∈ (todo.foldl ClauseIndex.resolveStep acc).oneFreeVarClauses ↔
        (if j ∈ todo then f j - 1 = 1 else j ∈ acc.oneFreeVarClauses))
  | [], acc, f, _, _, _, _ => ⟨rfl, rfl, rfl, by intro j; simp, by intro j; simp⟩
  | i :: rest, acc, f, hnd, hlen, hcnt, hone => by
    obtain ⟨hni, hndr⟩ := List.nodup_cons.mp hnd
    obtain ⟨hres2, hbv2, hfvc2⟩ := resolveStep_fields acc i
    have hci : acc.freeVarCount.getD i 0 = f i := hcnt i (List.mem_cons_self i rest)
    have hilen : i < acc.freeVarCount.length := hlen i (List.mem_cons_self i rest)
    have hlen2 : (ClauseIndex.resolveStep acc i).freeVarCount.length =
        acc.freeVarCount.length := by rw [hfvc2, List.length_set]
    have hget2ne : ∀ j, j ≠ i →
        (ClauseIndex.resolveStep acc i).freeVarCount.getD j 0 =
          acc.freeVarCount.getD j 0 := by
      intro j hj
      rw [hfvc2, List.getD_eq_getElem?_getD, List.getElem?_set_ne (fun h => hj h.symm),
        ← List.getD_eq_getElem?_getD]
    have hget2i : (ClauseIndex.resolveStep acc i).freeVarCount.getD i 0 = f i - 1 := by
      rw [hfvc2, List.getD_eq_getElem?_getD, List.getElem?_set_self hilen,
        Option.getD_some, hci]
    obtain ⟨ih1, ih2, ih3, ih4, ih5⟩ :=
      foldl_resolveStep_spec rest (ClauseIndex.resolveStep acc i) f hndr
        (fun j hj => by
          rw [hlen2]
          exact hlen j (List.mem_cons_of_mem i hj))
        (fun j hj => by
          rw [hget2ne j (fun h => hni (h ▸ hj))]
          exact hcnt j (List.mem_cons_of_mem i hj))
        (fun j hj => by
          rw [resolveStep_oneFree_mem acc i j (fun h => hni (h ▸ hj))]
          exact hone j (List.mem_cons_of_mem i hj))
    simp only [List.foldl_cons]
    refine ⟨ih1.trans hlen2, ih2.trans hres2, ih3.trans hbv2, ?_, ?_⟩
    · intro j
      rw [ih4 j]
      by_cases hj : j ∈ rest
      · rw [if_pos hj, if_pos (List.mem_cons_of_mem i hj)]
      · rw [if_neg hj]
        by_cases hji : j = i
        · subst hji
          rw [if_pos (List.mem_cons_self j rest), hget2i]
        · rw [if_neg (by
            simp only [List.mem_cons]
            rintro (h | h)
            · exact hji h
            · exact hj h)]
          exact hget2ne j hji
    · intro j
      rw [ih5 j]
      by_cases hj : j ∈ rest
      · rw [if_pos hj, if_pos (List.mem_cons_of_mem i hj)]
      · rw [if_neg hj]
        by_cases hji : j = i
        · subst hji
          rw [if_pos (List.mem_cons_self j rest)]
          have hs := resolveStep_oneFree_mem_self acc j (by
            rw [hci]
            exact hone j (List.mem_cons_self j rest))
          rw [hci] at hs
          exact hs
        · rw [if_neg (by
            simp only [List.mem_cons]
            rintro (h | h)
            · exact hji h
            · exact hj h)]
          exact resolveStep_oneFree_mem acc i j hji

theorem unresolveStep_fields (acc : ClauseIndex) (ix : Nat) :
    (ClauseIndex.unresolveStep acc ix).resolvedVars = acc.resolvedVars ∧
    (ClauseIndex.unresolveStep acc ix).byVar = acc.byVar ∧
    (ClauseIndex.unresolveStep acc ix).freeVarCount =
      acc.freeVarCount.set ix (acc.freeVarCount.getD ix 0 + 1) := by
  rw [unresolveStep_eq]
  exact ⟨rfl, rfl, rfl⟩

theorem unresolveStep_oneFree_mem (acc : ClauseIndex) (ix j : Nat) (hj : j ≠ ix) :
    j ∈ (ClauseIndex.unresolveStep acc ix).oneFreeVarClauses ↔
      j ∈ acc.oneFreeVarClauses := by
  rw [unresolveStep_eq]
  show j ∈ (if acc.freeVarCount.getD ix 0 + 1 = 1 then
        setInsert acc.oneFreeVarClauses ix
      else if acc.freeVarCount.getD ix 0 + 1 = 2 then
        setRemove acc.oneFreeVarClauses ix
      else acc.oneFreeVarClauses) ↔ j ∈ acc.oneFreeVarClauses
  by_cases h1 : acc.freeVarCount.getD ix 0 + 1 = 1
  · rw [if_pos h1, mem_setInsert]
    exact ⟨fun h => h.elim id (fun h3 => absurd h3 hj), Or.inl⟩
  · rw [if_neg h1]
    by_cases h2 : acc.freeVarCount.getD ix 0 + 1 = 2
    · rw [if_pos h2, mem_setRemove]
      exact ⟨fun h => h.1, fun h => ⟨h, hj⟩⟩
    · rw [if_neg h2]

theorem unresolveStep_oneFree_mem_self (acc : ClauseIndex) (ix : Nat)
    (h1 : ix ∈ acc.oneFreeVarClauses ↔ acc.freeVarCount.getD ix 0 = 1) :
    (ix ∈ (ClauseIndex.unresolveStep acc ix).oneFreeVarClauses ↔
      acc.freeVarCount.getD ix 0 + 1 = 1) := by
  rw [unresolveStep_eq]
  show ix ∈ (if acc.freeVarCount.getD ix 0 + 1 = 1 then
        setInsert acc.oneFreeVarClauses ix
      else if acc.freeVarCount.getD ix 0 + 1 = 2 then
        setRemove acc.oneFreeVarClauses ix
      else acc.oneFreeVarClauses) ↔ acc.freeVarCount.getD ix 0 + 1 = 1
  by_cases hc1 : acc.freeVarCount.getD ix 0 + 1 = 1
  · rw [if_pos hc1, mem_setInsert]
    exact ⟨fun _ => hc1, fun _ => Or.inr rfl⟩
  · rw [if_neg hc1]
    by_cases hc2 : acc.freeVarCount.getD ix 0 + 1 = 2
    · rw [if_pos hc2, mem_setRemove]
      constructor
      · exact fun h => absurd rfl h.2
      · intro h
        exact absurd h hc1
    · rw [if_neg hc2, h1]
      constructor
      · intro h
        exact absurd (show acc.freeVarCount.getD ix 0 + 1 = 2 by omega) hc2
      · intro h
        exact absurd h hc1

theorem foldl_unresolveStep_spec :
    ∀ (todo : List Nat) (acc : ClauseIndex) (f : Nat → Nat),
      todo.Nodup →
      (∀ i ∈ todo, i < acc.freeVarCount.length) →
      (∀ i ∈ todo, acc.freeVarCount.getD i 0 = f i) →
      (∀ i ∈ todo, (i ∈ acc.oneFreeVarClauses ↔ f i = 1)) →
      (todo.foldl ClauseIndex.unresolveStep acc).freeVarCount.length =
          acc.freeVarCount.length ∧
      (todo.foldl ClauseIndex.unresolveStep acc).resolvedVars = acc.resolvedVars ∧
      (todo.foldl ClauseIndex.unresolveStep acc).byVar = acc.byVar ∧
      (∀ j, (todo.foldl ClauseIndex.unresolveStep acc).freeVarCount.getD j 0 =
        if j ∈ todo then f j + 1 else acc.freeVarCount.getD j 0) ∧
      (∀ j, j ∈ (todo.foldl ClauseIndex.unresolveStep acc).oneFreeVarClauses ↔
        (if j ∈ todo then f j + 1 = 1 else j ∈ acc.oneFreeVarClauses))
  | [], acc, f, _, _, _, _ => ⟨rfl, rfl, rfl, by intro j; simp, by intro j; simp⟩
  | i :: rest, acc, f, hnd, hlen, hcnt, hone => by
    obtain ⟨hni, hndr⟩ := List.nodup_cons.mp hnd
    obtain ⟨hres2, hbv2, hfvc2⟩ := unresolveStep_fields acc i
    have hci : acc.freeVarCount.getD i 0 = f i := hcnt i (List.mem_cons_self i rest)
    have hilen : i < acc.freeVarCount.length := hlen i (List.mem_cons_self i rest)
    have hlen2 : (ClauseIndex.unresolveStep acc i).freeVarCount.length =
        acc.freeVarCount.length := by rw [hfvc2, List.length_set]
    have hget2ne : ∀ j, j ≠ i →
        (ClauseIndex.unresolveStep acc i).freeVarCount.getD j 0 =
          acc.freeVarCount.getD j 0 := by
      intro j hj
      rw [hfvc2, List.getD_eq_getElem?_getD, List.getElem?_set_ne (fun h => hj h.symm),
        ← List.getD_eq_getElem?_getD]
    have hget2i : (ClauseIndex.unresolveStep acc i).freeVarCount.getD i 0 = f i + 1 := by
      rw [hfvc2, List.getD_eq_getElem?_getD, List.getElem?_set_self hilen,
        Option.getD_some, hci]
    obtain ⟨ih1, ih2, ih3, ih4, ih5⟩ :=
      foldl_unresolveStep_spec rest (ClauseIndex.unresolveStep acc i) f hndr
        (fun j hj => by
          rw [hlen2]
          exact hlen j (List.mem_cons_of_mem i hj))
        (fun j hj => by
          rw [hget2ne j (fun h => hni (h ▸ hj))]
          exact hcnt j (List.mem_cons_of_mem i hj))
        (fun j hj => by
          rw [unresolveStep_oneFree_mem acc i j (fun h => hni (h ▸ hj))]
          exact hone j (List.mem_cons_of_mem i hj))
    simp only [List.foldl_cons]
    refine ⟨ih1.trans hlen2, ih2.trans hres2, ih3.trans hbv2, ?_, ?_⟩
    · intro j
      rw [ih4 j]
      by_cases hj : j ∈ rest
      · rw [if_pos hj, if_pos (List.mem_cons_of_mem i hj)]
      · rw [if_neg hj]
        by_cases hji : j = i
        · subst hji
          rw [if_pos (List.mem_cons_self j rest), hget2i]
        · rw [if_neg (by
            simp only [List.mem_cons]
            rintro (h | h)
            · exact hji h
            · exact hj h)]
          exact hget2ne j hji
    · intro j
      rw [ih5 j]
      by_cases hj : j ∈ rest
      · rw [if_pos hj, if_pos (List.mem_cons_of_mem i hj)]
      · rw [if_neg hj]
        by_cases hji : j = i
        · subst hji
          rw [if_pos (List.mem_cons_self j rest)]
          have hs := unresolveStep_oneFree_mem_self acc j (by
            rw [hci]
            exact hone j (List.mem_cons_self j rest))
          rw [hci] at hs
          exact hs
        · rw [if_neg (by
            simp only [List.mem_cons]
            rintro (h | h)
            · exact hji h
            · exact hj h)]
          exact unresolveStep_oneFree_mem acc i j hji

theorem byVarGet_initByVar (cs : List Clause) (refs : List ClauseRef)
    (href : (ClauseList.new cs).refsList = some refs)
    (hnd : ∀ ix, ix < (ClauseList.new cs).offsets.length → (initVars cs ix).Nodup)
    (v : Nat) :
    (byVarGet (initByVar cs) v).getD [] =
      (List.range (ClauseList.new cs).offsets.length).filter
        (fun ix => decide (v ∈ initVars cs ix)) := by
  obtain ⟨hlen, hget⟩ := refsList_spec _ refs href
  have hndr : ∀ r ∈ refs,
      ((r.literalsFrom (ClauseList.new cs)).map Literal.var).Nodup := by
    intro r hr
    obtain ⟨i, hi⟩ := List.mem_iff_getElem?.mp hr
    have hir : i < refs.length := by
      by_contra hcon
      rw [List.getElem?_eq_none (by omega)] at hi
      cases hi
    have hilt : i < (ClauseList.new cs).offsets.length := by omega
    have hgi : (ClauseList.new cs).get i = some r := by
      rw [← hget i hilt]
      exact hi
    have hv := hnd i hilt
    unfold initVars initLits at hv
    rw [hgi] at hv
    exact hv
  have e : initByVar cs =
      refs.enum.foldl
        (fun acc ic =>
          (ic.2.literalsFrom (ClauseList.new cs)).foldl
            (fun acc2 lit => byVarPush acc2 lit.var ic.1) acc)
        [] := by
    unfold initByVar
    rw [href]
  rw [e, List.enum_eq_enumFrom,
    byVar_enumFrom_foldl_getD (ClauseList.new cs) refs 0 [] v hndr]
  have hpq : ∀ (i : Nat) (h : i < refs.length),
      (fun ic : Nat × ClauseRef =>
          decide (v ∈ (ic.2.literalsFrom (ClauseList.new cs)).map Literal.var))
        (0 + i, refs.get ⟨i, h⟩) =
      (fun ix => decide (v ∈ initVars cs ix)) (0 + i) := by
    intro i h
    simp only [Nat.zero_add]
    have hilt : i < (ClauseList.new cs).offsets.length := by omega
    have hgi : (ClauseList.new cs).get i = some (refs.get ⟨i, h⟩) := by
      rw [← hget i hilt, List.getElem?_eq_getElem h]
      rfl
    have hiv : initVars cs i =
        ((refs.get ⟨i, h⟩).literalsFrom (ClauseList.new cs)).map Literal.var := by
      unfold initVars initLits
      rw [hgi]
    rw [hiv]
  rw [enumFrom_filter_map_fst
    (fun ic : Nat × ClauseRef =>
      decide (v ∈ (ic.2.literalsFrom (ClauseList.new cs)).map Literal.var))
    (fun ix => decide (v ∈ initVars cs ix)) refs 0 hpq, hlen]
  simp [List.range_eq_range', byVarGet]

theorem initBuckets_mem :
    ∀ (pairs : List (Nat × ClauseRef)) (oneSet : List Nat) (twoCount : Nat)
      (out : List Nat × Nat),
      ClauseIndex.initBuckets pairs (oneSet, twoCount) = some out →
      ∀ j, (j ∈ out.1 ↔
        (j ∈ oneSet ∨ ∃ c : ClauseRef, (j, c) ∈ pairs ∧ c.len = 1))
  | [], oneSet, twoCount, out, h, j => by
    have h2 : some (oneSet, twoCount) = some out := h
    cases h2
    simp
  | (i, c) :: rest, oneSet, twoCount, out, h, j => by
    rcases hlen : c.len with _ | _ | k
    · have h2 : (none : Option (List Nat × Nat)) = some out := by
        rw [← h]
        show (none : Option (List Nat × Nat)) =
          ClauseIndex.initBuckets ((i, c) :: rest) (oneSet, twoCount)
        unfold ClauseIndex.initBuckets
        rw [hlen]
      cases h2
    · have h2 : ClauseIndex.initBuckets rest (setInsert oneSet i, twoCount) = some out := by
        rw [← h]
        show ClauseIndex.initBuckets rest (setInsert oneSet i, twoCount) =
          ClauseIndex.initBuckets ((i, c) :: rest) (oneSet, twoCount)
        conv_rhs => unfold ClauseIndex.initBuckets
        rw [hlen]
      rw [initBuckets_mem rest _ _ out h2 j, mem_setInsert]
      constructor
      · rintro ((h3 | h3) | ⟨c2, hc2, hc2len⟩)
        · exact Or.inl h3
        · refine Or.inr ⟨c, ?_, hlen⟩
          rw [h3]
          exact List.mem_cons_self _ _
        · exact Or.inr ⟨c2, List.mem_cons_of_mem _ hc2, hc2len⟩
      · rintro (h3 | ⟨c2, hc2, hc2len⟩)
        · exact Or.inl (Or.inl h3)
        · rcases List.mem_cons.mp hc2 with h4 | h4
          · exact Or.inl (Or.inr (congrArg Prod.fst h4))
          · exact Or.inr ⟨c2, h4, hc2len⟩
    · have h2 : ClauseIndex.initBuckets rest (oneSet, twoCount + 1) = some out := by
        rw [← h]
        show ClauseIndex.initBuckets rest (oneSet, twoCount + 1) =
          ClauseIndex.initBuckets ((i, c) :: rest) (oneSet, twoCount)
        conv_rhs => unfold ClauseIndex.initBuckets
        rw [hlen]
        rfl
      rw [initBuckets_mem rest _ _ out h2 j]
      constructor
      · rintro (h3 | ⟨c2, hc2, hc2len⟩)
        · exact Or.inl h3
        · exact Or.inr ⟨c2, List.mem_cons_of_mem _ hc2, hc2len⟩
      · rintro (h3 | ⟨c2, hc2, hc2len⟩)
        · exact Or.inl h3
        · rcases List.mem_cons.mp hc2 with h4 | h4
          · have hc2c : c2 = c := congrArg Prod.snd h4
            rw [hc2c, hlen] at hc2len
            exact absurd hc2len (by omega)
          · exact Or.inr ⟨c2, h4, hc2len⟩

/-- Reachable clause-store states: the store is built by `ClauseStore::new`
on clauses whose variable lists are duplicate-free (which
`Clause::new_with_id` guarantees for its output), and then evolves by
`mark_resolved` on a not-yet-resolved variable (the solver marks a
variable when it becomes assigned), `mark_unresolved` on a resolved one
(backtracking), and `add_clause` (clause learning). -/
inductive ReachableStore (cs : List Clause) : ClauseStore → Prop where
  | init (s : ClauseStore) :
      ClauseStore.new cs = some s →
      (∀ ix, ix < (ClauseList.new cs).offsets.length → (initVars cs ix).Nodup) →
      ReachableStore cs s
  | resolve (s : ClauseStore) (v : Nat) :
      ReachableStore cs s → v ∉ s.index.resolvedVars →
      ReachableStore cs (s.markResolved v)
  | unresolve (s : ClauseStore) (v : Nat) :
      ReachableStore cs s → v ∈ s.index.resolvedVars →
      ReachableStore cs (s.markUnresolved v)
  | learn (s : ClauseStore) (lits : List Literal) (r : Option ClauseRef)
      (s2 : ClauseStore) :
      ReachableStore cs s → s.addClause lits = some (r, s2) →
      ReachableStore cs s2

/-- The store invariant that pins down `find_unit_prop_candidates`: the
initial arena slice is stable, the occurrence lists stay as built, and the
free counts and the one-free bucket track `freeCountSpec` on the initial
clauses. -/
structure StoreInv (cs : List Clause) (s : ClauseStore) : Prop where
  wf : ∀ o ∈ s.clauses.offsets, o ≤ s.clauses.literals.length
  offLen : (ClauseList.new cs).offsets.length ≤ s.clauses.offsets.length
  getStable : ∀ ix, ix < (ClauseList.new cs).offsets.length →
    s.clauses.get ix = (ClauseList.new cs).get ix
  byVarEq : s.index.byVar = initByVar cs
  fvcLen : (ClauseList.new cs).offsets.length ≤ s.index.freeVarCount.length
  counts : ∀ ix, ix < (ClauseList.new cs).offsets.length →
    s.index.freeVarCount.getD ix 0 = freeCountSpec cs s.index.resolvedVars ix
  oneFree : ∀ ix, ix < (ClauseList.new cs).offsets.length →
    (ix ∈ s.index.oneFreeVarClauses ↔
      freeCountSpec cs s.index.resolvedVars ix = 1)
  ndVars : ∀ ix, ix < (ClauseList.new cs).offsets.length →
    (initVars cs ix).Nodup
  refsSome : ∃ refs, (ClauseList.new cs).refsList = some refs

theorem ClauseStore_new_inv (cs : List Clause) (s : ClauseStore)
    (hnew : ClauseStore.new cs = some s)
    (hnd : ∀ ix, ix < (ClauseList.new cs).offsets.length → (initVars cs ix).Nodup) :
    StoreInv cs s := by
  unfold ClauseStore.new at hnew
  cases href : (ClauseList.new cs).refsList with
  | none =>
    rw [href] at hnew
    cases hnew
  | some refs =>
    rw [href] at hnew
    have hnew2 : (match ClauseIndex.new (ClauseList.new cs) refs with
        | none => none
        | some idx => some (⟨ClauseList.new cs, idx⟩ : ClauseStore)) = some s := hnew
    cases hidx : ClauseIndex.new (ClauseList.new cs) refs with
    | none =>
      rw [hidx] at hnew2
      cases hnew2
    | some idx =>
      rw [hidx] at hnew2
      have hs : s = ⟨ClauseList.new cs, idx⟩ := (Option.some.inj hnew2).symm
      subst hs
      have hidx2 : (match ClauseIndex.initBuckets refs.enum ([], 0) with
          | none => none
          | some (oneSet, twoCount) =>
            some (⟨refs.enum.foldl
                (fun acc ic =>
                  (ic.2.literalsFrom (ClauseList.new cs)).foldl
                    (fun acc2 lit => byVarPush acc2 lit.var ic.1) acc)
                [],
              [], refs.enum.map (fun ic => (ic.2, ic.1)), refs.map ClauseRef.len,
              [], oneSet, twoCount⟩ : ClauseIndex)) = some idx := hidx
      cases hib : ClauseIndex.initBuckets refs.enum ([], 0) with
      | none =>
        rw [hib] at hidx2
        cases hidx2
      | some buckets =>
        obtain ⟨oneSet, twoCount⟩ := buckets
        rw [hib] at hidx2
        have hidxeq : idx = ⟨refs.enum.foldl
            (fun acc ic =>
              (ic.2.literalsFrom (ClauseList.new cs)).foldl
                (fun acc2 lit => byVarPush acc2 lit.var ic.1) acc)
            [],
          [], refs.enum.map (fun ic => (ic.2, ic.1)), refs.map ClauseRef.len,
          [], oneSet, twoCount⟩ := (Option.some.inj hidx2).symm
        subst hidxeq
        obtain ⟨hlenr, hget⟩ := refsList_spec _ refs href
        have hwf := ClauseList_new_wf cs
        have hfact : ∀ ix, ix < (ClauseList.new cs).offsets.length →
            ∃ r : ClauseRef, (ClauseList.new cs).get ix = some r ∧
              refs[ix]? = some r ∧ freeCountSpec cs [] ix = r.len := by
          intro ix hix
          have hixr : ix < refs.length := by omega
          have hg : (ClauseList.new cs).get ix = some refs[ix] := by
            rw [← hget ix hix, List.getElem?_eq_getElem hixr]
          refine ⟨refs[ix], hg, List.getElem?_eq_getElem hixr, ?_⟩
          have hlf := literalsFrom_length _ hwf ix _ hg
          unfold freeCountSpec
          rw [List.filter_eq_self.mpr (fun a _ => by simp)]
          have hil : initLits cs ix = refs[ix].literalsFrom (ClauseList.new cs) := by
            unfold initLits
            rw [hg]
          rw [hil, hlf]
        refine ⟨hwf, Nat.le_refl _, fun ix _ => rfl, ?_, ?_, ?_, ?_, hnd, ⟨refs, href⟩⟩
        · have e : initByVar cs =
              refs.enum.foldl
                (fun acc ic =>
                  (ic.2.literalsFrom (ClauseList.new cs)).foldl
                    (fun acc2 lit => byVarPush acc2 lit.var ic.1) acc)
                [] := by
            unfold initByVar
            rw [href]
          exact e.symm
        · show (ClauseList.new cs).offsets.length ≤ (refs.map ClauseRef.len).length
          rw [List.length_map]
          omega
        · intro ix hix
          obtain ⟨r, hg, hr2, hcount⟩ := hfact ix hix
          show (refs.map ClauseRef.len).getD ix 0 = freeCountSpec cs [] ix
          rw [hcount, List.getD_eq_getElem?_getD, List.getElem?_map, hr2]
          rfl
        · intro ix hix
          obtain ⟨r, hg, hr2, hcount⟩ := hfact ix hix
          show ix ∈ oneSet ↔ freeCountSpec cs [] ix = 1
          rw [initBuckets_mem refs.enum [] 0 (oneSet, twoCount) hib ix]
          constructor
          · rintro (h | ⟨c, hc, hclen⟩)
            · cases h
            · rw [List.enum_eq_enumFrom, mem_enumFrom_iff refs 0 ix c] at hc
              have hceq : c = r := by
                have := hc.2
                rw [Nat.sub_zero, hr2] at this
                exact (Option.some.inj this).symm
              rw [hcount, ← hceq]
              exact hclen
          · intro h
            refine Or.inr ⟨r, ?_, by rw [← hcount]; exact h⟩
            rw [List.enum_eq_enumFrom, mem_enumFrom_iff refs 0 ix r]
            exact ⟨Nat.zero_le ix, by rw [Nat.sub_zero]; exact hr2⟩

theorem index_markResolved_eq (idx : ClauseIndex) (v : Nat) :
    ClauseIndex.markResolved idx v =
      (match byVarGet idx.byVar v with
       | none => { idx with resolvedVars := setInsert idx.resolvedVars v }
       | some ixes => ixes.foldl ClauseIndex.resolveStep
           { idx with resolvedVars := setInsert idx.resolvedVars v }) := by
  unfold ClauseIndex.markResolved
  rfl

theorem index_markUnresolved_eq (idx : ClauseIndex) (v : Nat) :
    ClauseIndex.markUnresolved idx v =
      (match byVarGet idx.byVar v with
       | none => { idx with resolvedVars := setRemove idx.resolvedVars v }
       | some ixes => ixes.foldl ClauseIndex.unresolveStep
           { idx with resolvedVars := setRemove idx.resolvedVars v }) := by
  unfold ClauseIndex.markUnresolved
  rfl

theorem StoreInv_markResolved (cs : List Clause) (s : ClauseStore) (v : Nat)
    (hinv : StoreInv cs s) (hv : v ∉ s.index.resolvedVars) :
    StoreInv cs (s.markResolved v) := by
  obtain ⟨refs, href⟩ := hinv.refsSome
  have hbv := byVarGet_initByVar cs refs href hinv.ndVars v
  rw [← hinv.byVarEq] at hbv
  cases hbvg : byVarGet s.index.byVar v with
  | none =>
    rw [hbvg] at hbv
    simp only [Option.getD_none] at hbv
    have hnone : ∀ ix, ix < (ClauseList.new cs).offsets.length →
        v ∉ initVars cs ix := by
      intro ix hix hmem
      have h2 : ix ∈ (List.range (ClauseList.new cs).offsets.length).filter
          (fun ix => decide (v ∈ initVars cs ix)) := by
        rw [List.mem_filter]
        exact ⟨List.mem_range.mpr hix, by simpa using hmem⟩
      rw [← hbv] at h2
      cases h2
    have hcong : ∀ ix, ix < (ClauseList.new cs).offsets.length →
        freeCountSpec cs (setInsert s.index.resolvedVars v) ix =
          freeCountSpec cs s.index.resolvedVars ix := by
      intro ix hix
      apply freeCountSpec_congr
      intro w hw
      rw [mem_setInsert]
      constructor
      · rintro (h | rfl)
        · exact h
        · exact absurd hw (hnone ix hix)
      · exact Or.inl
    have hieq : ClauseIndex.markResolved s.index v =
        { s.index with resolvedVars := setInsert s.index.resolvedVars v } := by
      rw [index_markResolved_eq, hbvg]
    refine ⟨hinv.wf, hinv.offLen, hinv.getStable, ?_, ?_, ?_, ?_, hinv.ndVars,
      ⟨refs, href⟩⟩
    · show (ClauseIndex.markResolved s.index v).byVar = initByVar cs
      rw [hieq]
      exact hinv.byVarEq
    · show (ClauseList.new cs).offsets.length ≤
        (ClauseIndex.markResolved s.index v).freeVarCount.length
      rw [hieq]
      exact hinv.fvcLen
    · intro ix hix
      show (ClauseIndex.markResolved s.index v).freeVarCount.getD ix 0 =
        freeCountSpec cs (ClauseIndex.markResolved s.index v).resolvedVars ix
      rw [hieq]
      show s.index.freeVarCount.getD ix 0 =
        freeCountSpec cs (setInsert s.index.resolvedVars v) ix
      rw [hcong ix hix]
      exact hinv.counts ix hix
    · intro ix hix
      show ix ∈ (ClauseIndex.markResolved s.index v).oneFreeVarClauses ↔
        freeCountSpec cs (ClauseIndex.markResolved s.index v).resolvedVars ix = 1
      rw [hieq]
      show ix ∈ s.index.oneFreeVarClauses ↔
        freeCountSpec cs (setInsert s.index.resolvedVars v) ix = 1
      rw [hcong ix hix]
      exact hinv.oneFree ix hix
  | some ixes =>
    rw [hbvg] at hbv
    simp only [Option.getD_some] at hbv
    have hnd_ixes : ixes.Nodup := by
      rw [hbv]
      exact (List.nodup_range _).filter _
    have hmem_ixes : ∀ j, j ∈ ixes ↔
        (j < (ClauseList.new cs).offsets.length ∧ v ∈ initVars cs j) := by
      intro j
      rw [hbv, List.mem_filter, List.mem_range]
      simp
    have hieq : ClauseIndex.markResolved s.index v =
        ixes.foldl ClauseIndex.resolveStep
          { s.index with resolvedVars := setInsert s.index.resolvedVars v } := by
      rw [index_markResolved_eq, hbvg]
    obtain ⟨fl1, fl2, fl3, fl4, fl5⟩ :=
      foldl_resolveStep_spec ixes
        { s.index with resolvedVars := setInsert s.index.resolvedVars v }
        (freeCountSpec cs s.index.resolvedVars) hnd_ixes
        (fun j hj => lt_of_lt_of_le ((hmem_ixes j).mp hj).1 hinv.fvcLen)
        (fun j hj => hinv.counts j ((hmem_ixes j).mp hj).1)
        (fun j hj => hinv.oneFree j ((hmem_ixes j).mp hj).1)
    refine ⟨hinv.wf, hinv.offLen, hinv.getStable, ?_, ?_, ?_, ?_, hinv.ndVars,
      ⟨refs, href⟩⟩
    · show (ClauseIndex.markResolved s.index v).byVar = initByVar cs
      rw [hieq, fl3]
      exact hinv.byVarEq
    · show (ClauseList.new cs).offsets.length ≤
        (ClauseIndex.markResolved s.index v).freeVarCount.length
      rw [hieq, fl1]
      exact hinv.fvcLen
    · intro ix hix
      show (ClauseIndex.markResolved s.index v).freeVarCount.getD ix 0 =
        freeCountSpec cs (ClauseIndex.markResolved s.index v).resolvedVars ix
      rw [hieq, fl4 ix, fl2]
      show _ = freeCountSpec cs (setInsert s.index.resolvedVars v) ix
      have hins := freeCountSpec_insert cs ix s.index.resolvedVars v
        (hinv.ndVars ix hix) hv
      by_cases hmv : ix ∈ ixes
      · rw [if_pos hmv]
        rw [if_pos ((hmem_ixes ix).mp hmv).2] at hins
        omega
      · rw [if_neg hmv]
        have hvn : v ∉ initVars cs ix := fun hvm => hmv ((hmem_ixes ix).mpr ⟨hix, hvm⟩)
        rw [if_neg hvn] at hins
        rw [hinv.counts ix hix]
        omega
    · intro ix hix
      show ix ∈ (ClauseIndex.markResolved s.index v).oneFreeVarClauses ↔
        freeCountSpec cs (ClauseIndex.markResolved s.index v).resolvedVars ix = 1
      rw [hieq, fl5 ix, fl2]
      show _ ↔ freeCountSpec cs (setInsert s.index.resolvedVars v) ix = 1
      have hins := freeCountSpec_insert cs ix s.index.resolvedVars v
        (hinv.ndVars ix hix) hv
      by_cases hmv : ix ∈ ixes
      · rw [if_pos hmv]
        rw [if_pos ((hmem_ixes ix).mp hmv).2] at hins
        have heq : freeCountSpec cs (setInsert s.index.resolvedVars v) ix =
            freeCountSpec cs s.index.resolvedVars ix - 1 := by omega
        rw [heq]
      · rw [if_neg hmv]
        have hvn : v ∉ initVars cs ix := fun hvm => hmv ((hmem_ixes ix).mpr ⟨hix, hvm⟩)
        rw [if_neg hvn] at hins
        have heq : freeCountSpec cs (setInsert s.index.resolvedVars v) ix =
            freeCountSpec cs s.index.resolvedVars ix := by omega
        rw [heq]
        show ix ∈ s.index.oneFreeVarClauses ↔ _
        exact hinv.oneFree ix hix

theorem StoreInv_markUnresolved (cs : List Clause) (s : ClauseStore) (v : Nat)
    (hinv : StoreInv cs s) (hv : v ∈ s.index.resolvedVars) :
    StoreInv cs (s.markUnresolved v) := by
  obtain ⟨refs, href⟩ := hinv.refsSome
  have hbv := byVarGet_initByVar cs refs href hinv.ndVars v
  rw [← hinv.byVarEq] at hbv
  cases hbvg : byVarGet s.index.byVar v with
  | none =>
    rw [hbvg] at hbv
    simp only [Option.getD_none] at hbv
    have hnone : ∀ ix, ix < (ClauseList.new cs).offsets.length →
        v ∉ initVars cs ix := by
      intro ix hix hmem
      have h2 : ix ∈ (List.range (ClauseList.new cs).offsets.length).filter
          (fun ix => decide (v ∈ initVars cs ix)) := by
        rw [List.mem_filter]
        exact ⟨List.mem_range.mpr hix, by simpa using hmem⟩
      rw [← hbv] at h2
      cases h2
    have hcong : ∀ ix, ix < (ClauseList.new cs).offsets.length →
        freeCountSpec cs (setRemove s.index.resolvedVars v) ix =
          freeCountSpec cs s.index.resolvedVars ix := by
      intro ix hix
      apply freeCountSpec_congr
      intro w hw
      rw [mem_setRemove]
      constructor
      · exact fun h => h.1
      · intro h
        refine ⟨h, ?_⟩
        intro heq
        rw [heq] at hw
        exact (hnone ix hix) hw
    have hieq : ClauseIndex.markUnresolved s.index v =
        { s.index with resolvedVars := setRemove s.index.resolvedVars v } := by
      rw [index_markUnresolved_eq, hbvg]
    refine ⟨hinv.wf, hinv.offLen, hinv.getStable, ?_, ?_, ?_, ?_, hinv.ndVars,
      ⟨refs, href⟩⟩
    · show (ClauseIndex.markUnresolved s.index v).byVar = initByVar cs
      rw [hieq]
      exact hinv.byVarEq
    · show (ClauseList.new cs).offsets.length ≤
        (ClauseIndex.markUnresolved s.index v).freeVarCount.length
      rw [hieq]
      exact hinv.fvcLen
    · intro ix hix
      show (ClauseIndex.markUnresolved s.index v).freeVarCount.getD ix 0 =
        freeCountSpec cs (ClauseIndex.markUnresolved s.index v).resolvedVars ix
      rw [hieq]
      show s.index.freeVarCount.getD ix 0 =
        freeCountSpec cs (setRemove s.index.resolvedVars v) ix
      rw [hcong ix hix]
      exact hinv.counts ix hix
    · intro ix hix
      show ix ∈ (ClauseIndex.markUnresolved s.index v).oneFreeVarClauses ↔
        freeCountSpec cs (ClauseIndex.markUnresolved s.index v).resolvedVars ix = 1
      rw [hieq]
      show ix ∈ s.index.oneFreeVarClauses ↔
        freeCountSpec cs (setRemove s.index.resolvedVars v) ix = 1
      rw [hcong ix hix]
      exact hinv.oneFree ix hix
  | some ixes =>
    rw [hbvg] at hbv
    simp only [Option.getD_some] at hbv
    have hnd_ixes : ixes.Nodup := by
      rw [hbv]
      exact (List.nodup_range _).filter _
    have hmem_ixes : ∀ j, j ∈ ixes ↔
        (j < (ClauseList.new cs).offsets.length ∧ v ∈ initVars cs j) := by
      intro j
      rw [hbv, List.mem_filter, List.mem_range]
      simp
    have hieq : ClauseIndex.markUnresolved s.index v =
        ixes.foldl ClauseIndex.unresolveStep
          { s.index with resolvedVars := setRemove s.index.resolvedVars v } := by
      rw [index_markUnresolved_eq, hbvg]
    obtain ⟨fl1, fl2, fl3, fl4, fl5⟩ :=
      foldl_unresolveStep_spec ixes
        { s.index with resolvedVars := setRemove s.index.resolvedVars v }
        (freeCountSpec cs s.index.resolvedVars) hnd_ixes
        (fun j hj => lt_of_lt_of_le ((hmem_ixes j).mp hj).1 hinv.fvcLen)
        (fun j hj => hinv.counts j ((hmem_ixes j).mp hj).1)
        (fun j hj => hinv.oneFree j ((hmem_ixes j).mp hj).1)
    refine ⟨hinv.wf, hinv.offLen, hinv.getStable, ?_, ?_, ?_, ?_, hinv.ndVars,
      ⟨refs, href⟩⟩
    · show (ClauseIndex.markUnresolved s.index v).byVar = initByVar cs
      rw [hieq, fl3]
      exact hinv.byVarEq
    · show (ClauseList.new cs).offsets.length ≤
        (ClauseIndex.markUnresolved s.index v).freeVarCount.length
      rw [hieq, fl1]
      exact hinv.fvcLen
    · intro ix hix
      show (ClauseIndex.markUnresolved s.index v).freeVarCount.getD ix 0 =
        freeCountSpec cs (ClauseIndex.markUnresolved s.index v).resolvedVars ix
      rw [hieq, fl4 ix, fl2]
      show _ = freeCountSpec cs (setRemove s.index.resolvedVars v) ix
      have hrem := freeCountSpec_remove cs ix s.index.resolvedVars v
        (hinv.ndVars ix hix) hv
      by_cases hmv : ix ∈ ixes
      · rw [if_pos hmv]
        rw [if_pos ((hmem_ixes ix).mp hmv).2] at hrem
        omega
      · rw [if_neg hmv]
        have hvn : v ∉ initVars cs ix := fun hvm => hmv ((hmem_ixes ix).mpr ⟨hix, hvm⟩)
        rw [if_neg hvn] at hrem
        rw [hinv.counts ix hix]
        omega
    · intro ix hix
      show ix ∈ (ClauseIndex.markUnresolved s.index v).oneFreeVarClauses ↔
        freeCountSpec cs (ClauseIndex.markUnresolved s.index v).resolvedVars ix = 1
      rw [hieq, fl5 ix, fl2]
      show _ ↔ freeCountSpec cs (setRemove s.index.resolvedVars v) ix = 1
      have hrem := freeCountSpec_remove cs ix s.index.resolvedVars v
        (hinv.ndVars ix hix) hv
      by_cases hmv : ix ∈ ixes
      · rw [if_pos hmv]
        rw [if_pos ((hmem_ixes ix).mp hmv).2] at hrem
        have heq : freeCountSpec cs (setRemove s.index.resolvedVars v) ix =
            freeCountSpec cs s.index.resolvedVars ix + 1 := by omega
        rw [heq]
      · rw [if_neg hmv]
        have hvn : v ∉ initVars cs ix := fun hvm => hmv ((hmem_ixes ix).mpr ⟨hix, hvm⟩)
        rw [if_neg hvn] at hrem
        have heq : freeCountSpec cs (setRemove s.index.resolvedVars v) ix =
            freeCountSpec cs s.index.resolvedVars ix := by omega
        rw [heq]
        show ix ∈ s.index.oneFreeVarClauses ↔ _
        exact hinv.oneFree ix hix

theorem ClauseIndex_addClause_fields (idx : ClauseIndex) (clause : ClauseRef)
    (literals : List Literal) :
    (idx.addClause clause literals).byVar = idx.byVar ∧
    (idx.addClause clause literals).resolvedVars = idx.resolvedVars ∧
    (idx.addClause clause literals).freeVarCount =
      idx.freeVarCount ++
        [(literals.filter (fun lit => decide (lit.var ∉ idx.resolvedVars))).length] ∧
    (∀ j, j ≠ idx.freeVarCount.length →
      (j ∈ (idx.addClause clause literals).oneFreeVarClauses ↔
        j ∈ idx.oneFreeVarClauses)) := by
  simp only [ClauseIndex.addClause]
  refine ⟨?_, ?_, ?_, ?_⟩
  · split
    · rfl
    · rfl
    · rfl
  · split
    · rfl
    · rfl
    · rfl
  · split
    · rfl
    · rfl
    · rfl
  · intro j hj
    split
    · exact Iff.rfl
    · show j ∈ setInsert idx.oneFreeVarClauses idx.freeVarCount.length ↔
        j ∈ idx.oneFreeVarClauses
      rw [mem_setInsert]
      exact ⟨fun h => h.elim id (fun h2 => absurd h2 hj), Or.inl⟩
    · exact Iff.rfl

theorem StoreInv_addClause (cs : List Clause) (s : ClauseStore) (lits : List Literal)
    (r : Option ClauseRef) (s2 : ClauseStore)
    (hinv : StoreInv cs s) (h : s.addClause lits = some (r, s2)) :
    StoreInv cs s2 := by
  obtain ⟨refs, href⟩ := hinv.refsSome
  unfold ClauseStore.addClause at h
  cases hadd : s.clauses.addClause lits with
  | none =>
    rw [hadd] at h
    cases h
  | some res =>
    rw [hadd] at h
    cases res with
    | duplicate =>
      have h2 : some ((none : Option ClauseRef), s) = some (r, s2) := h
      have hs2 : s = s2 := congrArg Prod.snd (Option.some.inj h2)
      rw [← hs2]
      exact hinv
    | added rr cl2 =>
      have h2 : some (some rr, (⟨cl2, s.index.addClause rr lits⟩ : ClauseStore)) =
          some (r, s2) := h
      have hs2 : s2 = ⟨cl2, s.index.addClause rr lits⟩ :=
        (congrArg Prod.snd (Option.some.inj h2)).symm
      subst hs2
      unfold ClauseList.addClause at hadd
      by_cases hsort : isSortedByVal lits = true
      · rw [if_pos hsort] at hadd
        by_cases hcont : s.clauses.containsSeq lits = true
        · rw [if_pos hcont] at hadd
          cases Option.some.inj hadd
        · rw [if_neg hcont] at hadd
          obtain ⟨rr2, hmk, hadded⟩ := Option.map_eq_some'.mp hadd
          injection hadded with ha hb
          have hcl2 : cl2 = ⟨s.clauses.literals ++ lits,
              s.clauses.offsets ++ [s.clauses.literals.length]⟩ := hb.symm
          subst hcl2
          obtain ⟨fa1, fa2, fa3, fa4⟩ := ClauseIndex_addClause_fields s.index rr lits
          refine ⟨?_, ?_, ?_, ?_, ?_, ?_, ?_, hinv.ndVars, ⟨refs, href⟩⟩
          · intro o ho
            rcases List.mem_append.mp ho with h3 | h3
            · exact (hinv.wf o h3).trans (by simp)
            · have heq : o = s.clauses.literals.length := by simpa using h3
              rw [heq]
              simp
          · show (ClauseList.new cs).offsets.length ≤
              (s.clauses.offsets ++ [s.clauses.literals.length]).length
            rw [List.length_append]
            have := hinv.offLen
            omega
          · intro ix hix
            rw [get_append_step s.clauses lits ix
              (lt_of_lt_of_le hix hinv.offLen) hinv.wf]
            exact hinv.getStable ix hix
          · show (s.index.addClause rr lits).byVar = initByVar cs
            rw [fa1]
            exact hinv.byVarEq
          · show (ClauseList.new cs).offsets.length ≤
              (s.index.addClause rr lits).freeVarCount.length
            rw [fa3, List.length_append]
            have := hinv.fvcLen
            omega
          · intro ix hix
            show (s.index.addClause rr lits).freeVarCount.getD ix 0 =
              freeCountSpec cs (s.index.addClause rr lits).resolvedVars ix
            rw [fa2, fa3, List.getD_eq_getElem?_getD,
              List.getElem?_append_left (lt_of_lt_of_le hix hinv.fvcLen),
              ← List.getD_eq_getElem?_getD]
            exact hinv.counts ix hix
          · intro ix hix
            show ix ∈ (s.index.addClause rr lits).oneFreeVarClauses ↔
              freeCountSpec cs (s.index.addClause rr lits).resolvedVars ix = 1
            rw [fa2, fa4 ix (by
              have := lt_of_lt_of_le hix hinv.fvcLen
              omega)]
            exact hinv.oneFree ix hix
      · rw [if_neg hsort] at hadd
        cases hadd

theorem StoreInv_reachable (cs : List Clause) (s : ClauseStore)
    (h : ReachableStore cs s) : StoreInv cs s := by
  induction h with
  | init s hnew hnd => exact ClauseStore_new_inv cs s hnew hnd
  | resolve s v _ hv ih => exact StoreInv_markResolved cs s v ih hv
  | unresolve s v _ hv ih => exact StoreInv_markUnresolved cs s v ih hv
  | learn s lits r s2 _ hadd ih => exact StoreInv_addClause cs s lits r s2 ih hadd

theorem findCandidates_of_inv (cs : List Clause) (s : ClauseStore)
    (hinv : StoreInv cs s) (l : Literal) :
    s.findUnitPropCandidates l = specUnitPropCandidates cs s.index.resolvedVars l := by
  obtain ⟨refs, href⟩ := hinv.refsSome
  have hbv := byVarGet_initByVar cs refs href hinv.ndVars l.var
  rw [← hinv.byVarEq] at hbv
  unfold ClauseStore.findUnitPropCandidates specUnitPropCandidates
  cases hbvg : byVarGet s.index.byVar l.var with
  | none =>
    rw [hbvg] at hbv
    simp only [Option.getD_none] at hbv
    have hsub : (List.range (ClauseList.new cs).offsets.length).filter
        (fun ix => decide (l.var ∈ initVars cs ix) &&
          decide (freeCountSpec cs s.index.resolvedVars ix = 1)) = [] := by
      rw [List.filter_eq_nil_iff]
      intro a ha hcon
      rw [Bool.and_eq_true] at hcon
      exact (List.filter_eq_nil_iff.mp hbv.symm a ha) hcon.1
    rw [hsub]
    rfl
  | some ixes =>
    rw [hbvg] at hbv
    simp only [Option.getD_some] at hbv
    show (ixes.filter (fun ix => decide (ix ∈ s.index.oneFreeVarClauses))).filterMap
        s.get = _
    rw [hbv, List.filter_filter]
    have hfc : ∀ a ∈ List.range (ClauseList.new cs).offsets.length,
        ((fun ix => decide (ix ∈ s.index.oneFreeVarClauses)) a &&
          (fun ix => decide (l.var ∈ initVars cs ix)) a) =
        ((fun ix => decide (l.var ∈ initVars cs ix) &&
          decide (freeCountSpec cs s.index.resolvedVars ix = 1)) a) := by
      intro a ha
      show (decide (a ∈ s.index.oneFreeVarClauses) &&
          decide (l.var ∈ initVars cs a)) = _
      rw [decide_eq_decide.mpr (hinv.oneFree a (List.mem_range.mp ha)),
        Bool.and_comm]
    rw [List.filter_congr hfc]
    apply List.filterMap_congr
    intro a ha
    have ha2 : a < (ClauseList.new cs).offsets.length :=
      List.mem_range.mp (List.mem_of_mem_filter ha)
    exact hinv.getStable a ha2

/-- The one-clause store for `(!x0 | x1)` (literal words 0 and 3), as built
by `ClauseStore::new`. -/
def storeC5a : ClauseStore :=
  ⟨⟨[⟨0⟩, ⟨3⟩], [0]⟩,
   ⟨[(0, [0]), (1, [0])], [], [(ClauseRef.Pair ⟨0⟩ ⟨3⟩, 0)], [2], [], [], 1⟩⟩

/-- The one-clause store for `(x0 | x1)` (literal words 1 and 3). -/
def storeC5b : ClauseStore :=
  ⟨⟨[⟨1⟩, ⟨3⟩], [0]⟩,
   ⟨[(0, [0]), (1, [0])], [], [(ClauseRef.Pair ⟨1⟩ ⟨3⟩, 0)], [2], [], [], 1⟩⟩

/-- `storeC5b` after `mark_resolved(2)` and learning `(x0 | !x2)` (words 1
and 4): the learnt clause has free count 1 and sits in the one-free
bucket, but is absent from every occurrence list. -/
def storeC5b2 : ClauseStore :=
  ⟨⟨[⟨1⟩, ⟨3⟩, ⟨1⟩, ⟨4⟩], [0, 2]⟩,
   ⟨[(0, [0]), (1, [0])], [2],
    [(ClauseRef.Pair ⟨1⟩ ⟨3⟩, 0), (ClauseRef.Pair ⟨1⟩ ⟨4⟩, 1)],
    [2, 1], [], [1], 1⟩⟩

/-- C5 (counterexample): `find_unit_prop_candidates(ℓ)` does NOT return
exactly the stored clauses containing the literal ℓ itself with free count
1.  Part one: on the store for `(!x0 | x1)` with x0 resolved, the query
for the POSITIVE literal x0 (word 1) returns the clause although the
clause contains only the negative literal !x0 — the occurrence lists are
keyed by variable, not by literal.  Part two: after learning `(x0 | !x2)`
with x2 resolved (free count 1), the query for x0 misses the learnt
clause entirely, because learnt clauses are never added to the occurrence
lists; the claim-side set `specClaimUnitPropCandidates` contains it. -/
theorem C5_unit_prop_candidates_counterexample :
    (ClauseStore.new [⟨0, [⟨0⟩, ⟨3⟩]⟩] = some storeC5a ∧
      (storeC5a.markResolved 0).findUnitPropCandidates ⟨1⟩ =
        [ClauseRef.Pair ⟨0⟩ ⟨3⟩] ∧
      (⟨1⟩ : Literal) ∉ (ClauseRef.Pair ⟨0⟩ ⟨3⟩).literalsFrom
        (storeC5a.markResolved 0).clauses ∧
      specClaimUnitPropCandidates (storeC5a.markResolved 0) ⟨1⟩ = []) ∧
    (ClauseStore.new [⟨0, [⟨1⟩, ⟨3⟩]⟩] = some storeC5b ∧
      (storeC5b.markResolved 2).addClause [⟨1⟩, ⟨4⟩] =
        some (some (ClauseRef.Pair ⟨1⟩ ⟨4⟩), storeC5b2) ∧
      storeC5b2.findUnitPropCandidates ⟨1⟩ = [] ∧
      specClaimUnitPropCandidates storeC5b2 ⟨1⟩ = [ClauseRef.Pair ⟨1⟩ ⟨4⟩]) := by
  refine ⟨⟨by decide, by decide, by decide, by decide⟩,
    by decide, by decide, by decide, by decide⟩

/-- C5 (amended): for every literal ℓ and every reachable clause-store
state, `find_unit_prop_candidates(ℓ)` returns exactly those clauses that
were indexed at construction time (learnt clauses are never added to the
occurrence lists) that contain ℓ's VARIABLE in either polarity and whose
current free count is exactly 1, in construction order. -/
theorem C5_unit_prop_candidates_amended (cs : List Clause) (s : ClauseStore)
    (h : ReachableStore cs s) (l : Literal) :
    s.findUnitPropCandidates l =
      specUnitPropCandidates cs s.index.resolvedVars l :=
  findCandidates_of_inv cs s (StoreInv_reachable cs s h) l

theorem C5_unit_prop_candidates_witness :
    ReachableStore [⟨0, [⟨0⟩, ⟨3⟩]⟩] (storeC5a.markResolved 0) ∧
    (storeC5a.markResolved 0).findUnitPropCandidates ⟨1⟩ =
      specUnitPropCandidates [⟨0, [⟨0⟩, ⟨3⟩]⟩]
        (storeC5a.markResolved 0).index.resolvedVars ⟨1⟩ := by
  have hreach : ReachableStore [⟨0, [⟨0⟩, ⟨3⟩]⟩] (storeC5a.markResolved 0) :=
    ReachableStore.resolve storeC5a 0
      (ReachableStore.init storeC5a (by decide) (by
        intro ix hix
        have hn : (ClauseList.new [⟨0, [⟨0⟩, ⟨3⟩]⟩]).offsets.length = 1 := by decide
        have hix0 : ix = 0 := by omega
        rw [hix0]
        decide))
      (by decide)
  exact ⟨hreach, C5_unit_prop_candidates_amended [⟨0, [⟨0⟩, ⟨3⟩]⟩]
    (storeC5a.markResolved 0) hreach ⟨1⟩⟩

end Smellysat
